import Mathlib

/-!
Shallow embedding of the Zettlr configuration engine
(source/main/zettlr-config.js) and proofs about its specification.

The configuration tree is a JSON-shaped value (the file is read with
JSON.parse and written with JSON.stringify).  Methods of the ZettlrConfig
class are translated to pure functions; in-place mutation becomes explicit
state passing, the single EventEmitter event (emit of the update event) is
counted explicitly, and a thrown JavaScript exception is an explicit error
value.  Filesystem facts (which files exist, directory listings, the isDir /
ignoreFile / isDictAvailable helpers, which live outside this source file)
are parameters of the functions that consult them.
-/

/-- A JavaScript value of the shapes that can occur in the configuration
tree: the template contains null, booleans, numbers, strings, arrays and
plain objects, and JSON.parse produces exactly these shapes.  An object is
a list of key/value pairs in insertion order. -/
inductive JValue where
  | null : JValue
  | bool : Bool → JValue
  | num : Int → JValue
  | str : String → JValue
  | arr : List JValue → JValue
  | obj : List (String × JValue) → JValue

/-- Is a string a canonical base-10 numeral (no leading zeros except the
numeral 0 itself)?  These are the strings that act as array and string
index own-properties in JavaScript. -/
def isIndexString (s : String) : Bool :=
  let cs := s.toList
  cs ≠ [] && cs.all (fun c => '0' ≤ c && c ≤ '9') &&
    (cs.headD '0' ≠ '0' || cs.length == 1)

/-- Numeric value of an index string. -/
def indexVal (s : String) : Nat :=
  s.toList.foldl (fun n c => n * 10 + (c.toNat - '0'.toNat)) 0

/-- Translation of x.hasOwnProperty(k).  Calling it on null throws a
TypeError, which is the error case.  A plain object owns exactly its keys;
an array owns its element indices and length; a string (boxed) owns its
character indices and length; other primitives own nothing. -/
def hasOwnE (v : JValue) (k : String) : Except Unit Bool :=
  match v with
  | .null => .error ()
  | .obj kvs => .ok (kvs.any (fun kv => kv.1 == k))
  | .arr xs => .ok (k == "length" || (isIndexString k && indexVal k < xs.length))
  | .str s => .ok (k == "length" || (isIndexString k && indexVal k < s.length))
  | _ => .ok false

/-- Translation of the property read x[k], used only after hasOwnProperty
returned true; the fallthrough value for the unreachable cases is null. -/
def getProp (v : JValue) (k : String) : JValue :=
  match v with
  | .obj kvs => match kvs.find? (fun kv => kv.1 == k) with
      | some kv => kv.2
      | none => .null
  | .arr xs => if k == "length" then .num xs.length
      else (xs.get? (indexVal k)).getD .null
  | .str s => if k == "length" then .num s.length
      else match s.toList.get? (indexVal k) with
        | some c => .str (String.mk [c])
        | none => .null
  | _ => .null

/-- Overwrite the value of a key in an object field list (a JavaScript
object has at most one field per key, so overwriting the first match is
the object field update). -/
def setField (kvs : List (String × JValue)) (k : String) (value : JValue) :
    List (String × JValue) :=
  match kvs with
  | [] => []
  | kv :: rest => if kv.1 == k then (kv.1, value) :: rest else kv :: setField rest k value

/-- Translation of the property write x[k] = value (sloppy mode, as in the
source file, which has no use-strict directive).  Writing a field of a
plain object replaces it; writing an array index replaces the element;
writing array length resizes the array (JSON serializes the resulting
holes as null, so holes are modeled as null) and throws a RangeError when
the value is not a valid length; a write to a boxed string or other
primitive property is silently discarded. -/
def assignProp (v : JValue) (k : String) (value : JValue) : Except Unit JValue :=
  match v with
  | .obj kvs => .ok (.obj (setField kvs k value))
  | .arr xs =>
      if k == "length" then
        match value with
        | .num n => if n < 0 then .error () else
            .ok (.arr ((xs.take n.toNat) ++ List.replicate (n.toNat - xs.length) .null))
        | _ => .error ()
      else if isIndexString k then .ok (.arr (xs.set (indexVal k) value))
      else .ok v
  | .null => .error ()
  | _ => .ok v

/-- Modelled from the spec: the validation rules (ZettlrValidation objects
booted from validation.json, neither of which is in the available source)
are opaque predicates keyed by a dotted option name; getKey returns the
key and validate applies the predicate. -/
def Rules : Type := List (String × (JValue → Bool))

/-- Translation of ZettlrConfig.prototype _validate: find the first rule
whose key matches and apply it; a key with no rule is always valid. -/
def validateKey (rules : Rules) (key : String) (value : JValue) : Bool :=
  match rules.find? (fun r => r.1 == key) with
  | some r => r.2 value
  | none => true

/-- Split a character list on a separator character (the splitter behind
the JavaScript String split method with a one-character separator). -/
def splitCh (sep : Char) : List Char → List (List Char)
  | [] => [[]]
  | c :: cs =>
      match splitCh sep cs with
      | [] => [[c]]
      | s :: rest => if c == sep then [] :: s :: rest else (c :: s) :: rest

/-- Translation of s.split(sep) for a one-character separator. -/
def jsSplit (sep : Char) (s : String) : List String :=
  (splitCh sep s.toList).map (fun cs => String.mk cs)

/-- Does the string contain a dot at an index greater than zero?  This is
the test option.indexOf(dot) > 0 used by get and set. -/
def dotAfterStart (s : String) : Bool :=
  match s.toList.findIdx? (fun c => c == '.') with
  | some i => decide (0 < i)
  | none => false

/-- Result of a mutating configuration operation: the configuration tree
after the call, the number of update events emitted, and either the
returned boolean or an error marking a thrown exception. -/
structure OpResult where
  config : JValue
  emits : Nat
  ret : Except Unit Bool

/-- The walk of the second branch of set: follow the already-popped path
segments from the current node, then test the final leaf and assign.  The
walk mirrors the source loop: at each segment it calls hasOwnProperty
(throwing on null), descends on true and returns false otherwise; at the
end it calls hasOwnProperty for the leaf, validates, assigns and emits.
In-place mutation of the visited node is rendered by rebuilding the
spine.  The full dotted option string is passed through for validation. -/
def setWalk (rules : Rules) (option : String) (value : JValue) :
    JValue → List String → String → JValue × Nat × Except Unit Bool
  | cfg, [], prop =>
      match hasOwnE cfg prop with
      | .error _ => (cfg, 0, .error ())
      | .ok false => (cfg, 0, .ok false)
      | .ok true =>
          if validateKey rules option value then
            match assignProp cfg prop value with
            | .error _ => (cfg, 0, .error ())
            | .ok cfg' => (cfg', 1, .ok true)
          else (cfg, 0, .ok false)
  | cfg, arg :: rest, prop =>
      match hasOwnE cfg arg with
      | .error _ => (cfg, 0, .error ())
      | .ok false => (cfg, 0, .ok false)
      | .ok true =>
          let r := setWalk rules option value (getProp cfg arg) rest prop
          match assignProp cfg arg r.1 with
          | .error _ => (cfg, r.2.1, r.2.2)
          | .ok cfg' => (cfg', r.2.1, r.2.2)

/-- Translation of ZettlrConfig.prototype set(option, value).  First
branch: a directly owned (possibly dotless) key that validates is written
at the top level.  Second branch, only when the option has a dot after
position zero: split on dots, pop the leaf, walk to the parent and write
there.  Anything else returns false. -/
def setOpt (rules : Rules) (config : JValue) (option : String) (value : JValue) : OpResult :=
  match hasOwnE config option with
  | .error _ => { config := config, emits := 0, ret := .error () }
  | .ok ownTop =>
      if ownTop && validateKey rules option value then
        match assignProp config option value with
        | .error _ => { config := config, emits := 0, ret := .error () }
        | .ok cfg' => { config := cfg', emits := 1, ret := .ok true }
      else
        if dotAfterStart option then
          let nested := jsSplit '.' option
          let prop := nested.getLastD ""
          let args := nested.dropLast
          let r := setWalk rules option value config args prop
          { config := r.1, emits := r.2.1, ret := r.2.2 }
        else { config := config, emits := 0, ret := .ok false }

mutual

/-- Translation of ZettlrConfig.prototype update(newcfg, oldcfg).  The
for-in loop enumerates the own enumerable keys of oldcfg (fields of an
object, element indices of an array or boxed string, nothing for other
values).  For each key also owned by newcfg: when the old value is of
object type, not an array and not null (that is, a plain object), recurse
with both children, otherwise assign the new value over the old one.
After the loop the method emits one update event; hence every recursive
call emits as well.  The third component records a thrown exception
(newcfg.hasOwnProperty throws when a plain-object or array old value meets
a null new value); fields after the throwing one stay untouched. -/
def updateOp (newcfg : JValue) (oldcfg : JValue) : JValue × Nat × Bool :=
  match oldcfg with
  | .obj kvs =>
      let r := updateFields newcfg kvs
      if r.2.2 then (.obj r.1, r.2.1, true) else (.obj r.1, r.2.1 + 1, false)
  | .arr xs =>
      let r := updateElems newcfg xs 0
      if r.2.2 then (.arr r.1, r.2.1, true) else (.arr r.1, r.2.1 + 1, false)
  | .str s =>
      -- for-in over a boxed string visits its character indices; each
      -- visit only tests newcfg.hasOwnProperty (throwing iff newcfg is
      -- null) because a one-character string is never a plain object and
      -- the property write onto the boxed string is discarded.
      match s.length, newcfg with
      | Nat.succ _, .null => (.str s, 0, true)
      | _, _ => (.str s, 1, false)
  | old => (old, 1, false)
termination_by sizeOf oldcfg

/-- The for-in loop of update over the field list of a plain-object
oldcfg, processed in insertion order. -/
def updateFields (newcfg : JValue) (kvs : List (String × JValue)) :
    List (String × JValue) × Nat × Bool :=
  match kvs with
  | [] => ([], 0, false)
  | (k, v) :: rest =>
      match hasOwnE newcfg k with
      | .error _ => ((k, v) :: rest, 0, true)
      | .ok own =>
          if own then
            match v with
            | .obj fs =>
                let c := updateOp (getProp newcfg k) (.obj fs)
                if c.2.2 then ((k, c.1) :: rest, c.2.1, true)
                else
                  let r := updateFields newcfg rest
                  ((k, c.1) :: r.1, c.2.1 + r.2.1, r.2.2)
            | _ =>
                let r := updateFields newcfg rest
                ((k, getProp newcfg k) :: r.1, r.2.1, r.2.2)
          else
            let r := updateFields newcfg rest
            ((k, v) :: r.1, r.2.1, r.2.2)
termination_by sizeOf kvs

/-- The for-in loop of update over the elements of an array oldcfg; the
keys are the decimal index strings in ascending order. -/
def updateElems (newcfg : JValue) (xs : List JValue) (i : Nat) :
    List JValue × Nat × Bool :=
  match xs with
  | [] => ([], 0, false)
  | x :: rest =>
      match hasOwnE newcfg (Nat.repr i) with
      | .error _ => (x :: rest, 0, true)
      | .ok own =>
          if own then
            match x with
            | .obj fs =>
                let c := updateOp (getProp newcfg (Nat.repr i)) (.obj fs)
                if c.2.2 then (c.1 :: rest, c.2.1, true)
                else
                  let r := updateElems newcfg rest (i + 1)
                  (c.1 :: r.1, c.2.1 + r.2.1, r.2.2)
            | _ =>
                let r := updateElems newcfg rest (i + 1)
                (getProp newcfg (Nat.repr i) :: r.1, r.2.1, r.2.2)
          else
            let r := updateElems newcfg rest (i + 1)
            (x :: r.1, r.2.1, r.2.2)
termination_by sizeOf xs

end

/-- Translation of ZettlrConfig.prototype load().  The filesystem state of
the backing file is abstracted as: none when the file does not exist (the
lstat call throws), some none when it exists but JSON.parse of its bytes
throws, and some (some v) when it parses to v.  In the first two cases the
catch block writes the serialized template over the backing file and
returns early; otherwise the parsed tree is merged over the template with
update.  Result: the live tree, what (if anything) was written to the
backing file, the number of update events, and whether an exception
escaped load. -/
def loadOp (tpl : JValue) (file : Option (Option JValue)) :
    JValue × Option JValue × Nat × Bool :=
  match file with
  | none => (tpl, some tpl, 0, false)
  | some none => (tpl, some tpl, 0, false)
  | some (some readConfig) =>
      match updateOp readConfig tpl with
      | (cfg, e, t) => (cfg, none, e, t)

/-- Translation of the config template this.cfgtpl, parametric in the
environment facts read at construction time: the primary display width
(the source assigns workAreaSize.width to both the width and the height
field), the attachment extension list from the bundled data file, and the
locale computed by getLocale. -/
def cfgtpl (screenWidth : Int) (attachmentExts : List String) (appLang : String) : JValue :=
  .obj [
    ("openPaths", .arr []),
    ("dialogPaths", .obj [
      ("askFileDialog", .str ""),
      ("askDirDialog", .str ""),
      ("askLangFileDialog", .str "")]),
    ("window", .obj [
      ("x", .num 0),
      ("y", .num 0),
      ("width", .num screenWidth),
      ("height", .num screenWidth),
      ("max", .bool true)]),
    ("lastFile", .null),
    ("lastDir", .null),
    ("attachmentExtensions", .arr (attachmentExts.map .str)),
    ("darkTheme", .bool false),
    ("snippets", .bool false),
    ("muteLines", .bool true),
    ("combinerState", .str "collapsed"),
    ("pandoc", .str "pandoc"),
    ("xelatex", .str "xelatex"),
    ("export", .obj [
      ("dir", .str "temp"),
      ("stripIDs", .bool true),
      ("stripTags", .bool false),
      ("stripLinks", .str "full"),
      ("cslLibrary", .str ""),
      ("cslStyle", .str "")]),
    ("pdf", .obj [
      ("author", .str "Generated by Zettlr"),
      ("keywords", .str ""),
      ("papertype", .str "a4paper"),
      ("pagenumbering", .str "gobble"),
      ("tmargin", .num 3),
      ("rmargin", .num 3),
      ("bmargin", .num 3),
      ("lmargin", .num 3),
      ("margin_unit", .str "cm"),
      ("lineheight", .str "1.5"),
      ("mainfont", .str "Times New Roman"),
      ("sansfont", .str "Arial"),
      ("fontsize", .num 12)]),
    ("zkn", .obj [
      ("idRE", .str "(\\d\x7b14\x7d)"),
      ("idGen", .str "%Y%M%D%h%m%s"),
      ("linkStart", .str "[["),
      ("linkEnd", .str "]]")]),
    ("editor", .obj [
      ("autoCloseBrackets", .bool true)]),
    ("selectedDicts", .arr []),
    ("app_lang", .str appLang),
    ("debug", .bool false),
    ("uuid", .null)]

/-- Field lookup in an object field list (first match, as find does). -/
def lookupField (kvs : List (String × JValue)) (k : String) : Option JValue :=
  (kvs.find? (fun kv => kv.1 == k)).map (fun kv => kv.2)

/-- Plain-object path lookup used to state claims: walk the given
segments, descending through object fields only. -/
def lookupPath : JValue → List String → Option JValue
  | v, [] => some v
  | .obj kvs, k :: rest =>
      match lookupField kvs k with
      | some child => lookupPath child rest
      | none => none
  | _, _ :: _ => none

/-- Stated from the words of the claim: the resolved leaf key of a dotted
option exists in the tree, that is, the dotted path up to the last segment
resolves to a plain object owning the final segment. -/
def leafExistsSpec (config : JValue) (option : String) : Bool :=
  let segs := jsSplit '.' option
  match lookupPath config segs.dropLast with
  | some (.obj kvs) => kvs.any (fun kv => kv.1 == segs.getLastD "")
  | _ => false

/-- The dotted walk of set stays within plain objects: every node visited
while following the given segments (descending only when the key is
present) is a plain object. -/
def objWalk : JValue → List String → Bool
  | .obj _, [] => true
  | .obj kvs, k :: rest =>
      match lookupField kvs k with
      | some child => objWalk child rest
      | none => true
  | _, _ => false

/-- All top-level keys of a plain-object tree are free of dots. -/
def topKeysDotFree : JValue → Bool
  | .obj kvs => kvs.all (fun kv => !(kv.1.toList.contains '.'))
  | _ => false

/-- The UTF-16 code unit sequence of a string: the JavaScript default
array sort comparator compares strings by these units. -/
def utf16Units (s : String) : List Nat :=
  (s.toList.map (fun c =>
    if c.toNat < 0x10000 then [c.toNat]
    else [0xD800 + (c.toNat - 0x10000) / 0x400, 0xDC00 + (c.toNat - 0x10000) % 0x400])).flatten

/-- Lexicographic comparison of unit sequences. -/
def lexLeUnits : List Nat → List Nat → Bool
  | [], _ => true
  | _ :: _, [] => false
  | a :: as, b :: bs => if a < b then true else if b < a then false else lexLeUnits as bs

/-- The string order of the JavaScript default sort comparator. -/
def jsStrLe (a b : String) : Prop := lexLeUnits (utf16Units a) (utf16Units b) = true

instance : DecidableRel jsStrLe := fun _ _ => instDecidableEqBool _ _

/-- Translation of ZettlrConfig.prototype _sortPaths: partition openPaths
into non-directories and directories by one pass (pushing into f and d
preserves relative order), sort each group with the default string sort,
and concatenate files first.  The JavaScript sort returns the (unique,
because the comparator is a total antisymmetric order) sorted permutation
of its input, so insertion sort realizes it. -/
def sortPaths (isDir : String → Bool) (openPaths : List String) : List String :=
  let f := openPaths.filter (fun p => !isDir p)
  let d := openPaths.filter (fun p => isDir p)
  List.insertionSort jsStrLe f ++ List.insertionSort jsStrLe d

/-- Translation of ZettlrConfig.prototype addPath(p): add p when it is not
an ignorable file or is a directory, and not already present; then
re-sort.  Returns the new list and the returned boolean. -/
def addPath (ignoreFile isDir : String → Bool) (openPaths : List String) (p : String) :
    List String × Bool :=
  if (!ignoreFile p || isDir p) && !openPaths.contains p then
    (sortPaths isDir (openPaths ++ [p]), true)
  else (openPaths, false)

/-- Translation of ZettlrConfig.prototype removePath(p): splice out the
first exact match when present. -/
def removePath (openPaths : List String) (p : String) : List String :=
  if openPaths.contains p then openPaths.erase p else openPaths

/-- The index loop of checkPaths over openPaths: lstat every entry and
splice out (with the index stepped back) every entry whose lstat throws;
this keeps exactly the entries passing the existence check, in order. -/
def pruneLoop (keep : String → Bool) : List String → List String
  | [] => []
  | p :: rest => if keep p then p :: pruneLoop keep rest else pruneLoop keep rest

/-- Spreading a Set built from the list: deduplication keeping the first
occurrence of every element, in encounter order. -/
def dedupFirst : List String → List String
  | [] => []
  | p :: rest => p :: dedupFirst (rest.filter (fun q => !(q == p)))
termination_by l => l.length
decreasing_by
  simp only [List.length_cons]
  exact Nat.lt_succ_of_le (List.length_filter_le _ _)

/-- Translation of the openPaths part of ZettlrConfig.prototype
checkPaths(): prune entries that fail the filesystem existence check,
remove duplicates via a Set, and sort.  (The creation of the dict
directory is a filesystem side effect with no bearing on the list; the
selectedDicts pass is the same splice loop with isDictAvailable.) -/
def checkPathsOpen (pathExists isDir : String → Bool) (openPaths : List String) : List String :=
  sortPaths isDir (dedupFirst (pruneLoop pathExists openPaths))

/-- The ordering invariant claimed for openPaths: some decomposition into
a block of non-directories followed by a block of directories, each block
sorted ascending by the default string order. -/
def filesFirstSorted (isDir : String → Bool) (l : List String) : Prop :=
  ∃ f d, l = f ++ d ∧ (∀ p ∈ f, isDir p = false) ∧ (∀ p ∈ d, isDir p = true) ∧
    f.Sorted jsStrLe ∧ d.Sorted jsStrLe

/-- The full openPaths invariant: no duplicates, files first, each group
sorted. -/
def pathsInvariant (isDir : String → Bool) (l : List String) : Prop :=
  l.Nodup ∧ filesFirstSorted isDir l

/-- The main part of the raw locale: everything before the first dash when
one is present, the whole string otherwise. -/
def rawMainOf (rawLocale : String) : String :=
  if rawLocale.toList.contains '-' then (jsSplit '-' rawLocale).headD "" else rawLocale

/-- The sub part of the raw locale: the second dash-separated piece when a
dash is present (pieces beyond the second are dropped), null otherwise. -/
def rawSubOf (rawLocale : String) : Option String :=
  if rawLocale.toList.contains '-' then (jsSplit '-' rawLocale).get? 1 else none

/-- The loop of getLocale over the supported tags: split each tag on the
underscore into ml and sl; on ml equal to the raw main part, return the
tag at once when the raw sub part is null, or when sl equals the raw sub
part; otherwise keep iterating. -/
def localeLoop (mainlang : String) (lang : Option String) : List String → Option String
  | [] => none
  | sup :: rest =>
      let ml := (jsSplit '_' sup).headD ""
      let sl := (jsSplit '_' sup).get? 1
      if ml == mainlang then
        match lang with
        | none => some sup
        | some lg => if sl == some lg then some sup else localeLoop mainlang lang rest
      else localeLoop mainlang lang rest

/-- Translation of ZettlrConfig.prototype getLocale(), parametric in the
operating-system locale string and the supported tag list in enumeration
order; falls back to en_US when the loop finds nothing. -/
def getLocale (supported : List String) (rawLocale : String) : String :=
  (localeLoop (rawMainOf rawLocale) (rawSubOf rawLocale) supported).getD "en_US"

/-- Stated from the words of the claim: a supported tag matches when its
main part equals the raw main part and the raw sub part is null or equals
the tag sub part. -/
def localeMatchSpec (mainlang : String) (lang : Option String) (sup : String) : Bool :=
  (jsSplit '_' sup).headD "" == mainlang &&
    (lang.isNone || (jsSplit '_' sup).get? 1 == lang)

/-- One lowercase ASCII letter, as matched by the character class of the
locale patterns. -/
def isLowerAZ (c : Char) : Bool := 'a' ≤ c && c ≤ 'z'

/-- One uppercase ASCII letter. -/
def isUpperAZ (c : Char) : Bool := 'A' ≤ c && c ≤ 'Z'

/-- Translation of the anchored dictionary-name regex test (caret,
lowercase letters 1 to 3, underscore, uppercase letters 1 to 3, dollar):
the whole name decomposes that way for some choice of run lengths. -/
def anchoredTagTest (s : String) : Bool :=
  [1, 2, 3].any (fun l => [1, 2, 3].any (fun u =>
    let cs := s.toList
    cs.length == l + 1 + u &&
    (cs.take l).all isLowerAZ &&
    cs.get? l == some '_' &&
    (cs.drop (l + 1)).all isUpperAZ))

/-- Does the translation-file pattern (lowercase letters 1 to 3,
underscore, uppercase letters 1 to 3, the literal extension dot json)
match starting at the head of the character list, for the given run
lengths? -/
def langSegMatch (cs : List Char) (l u : Nat) : Bool :=
  l + 1 + u + 5 ≤ cs.length &&
  (cs.take l).all isLowerAZ &&
  cs.get? l == some '_' &&
  ((cs.drop (l + 1)).take u).all isUpperAZ &&
  (cs.drop (l + 1 + u)).take 5 == ".json".toList

/-- Translation of the unanchored translation-file regex test: the
backtracking engine succeeds exactly when the pattern matches at some
start position with some choice of run lengths. -/
def langPatTest (s : String) : Bool :=
  let cs := s.toList
  (List.range (cs.length + 1)).any (fun i =>
    [1, 2, 3].any (fun l => [1, 2, 3].any (fun u => langSegMatch (cs.drop i) l u)))

/-- Translation of f.substr(0, f.lastIndexOf(dot)): the name up to its
last dot; with no dot, lastIndexOf is minus one and substr returns the
empty string. -/
def stripExt (s : String) : String :=
  let cs := s.toList
  match ((List.range cs.length).filter (fun i => cs.get? i == some '.')).getLast? with
  | some i => String.mk (cs.take i)
  | none => ""

/-- Translation of ZettlrConfig.prototype getSupportedLangs(): filter the
bundled directory listing by the unanchored pattern and strip the
extension; then the same for the user directory listing, whose read may
fail (none), which is swallowed and contributes nothing. -/
def getSupportedLangs (bundled : List String) (userFiles : Option (List String)) : List String :=
  (bundled.filter langPatTest).map stripExt ++
    (match userFiles with
     | some fs => (fs.filter langPatTest).map stripExt
     | none => [])

/-- Translation of ZettlrConfig.prototype getDictionaries(): keep the
entries of the bundled listing whose name passes the anchored pattern,
which are directories, and whose dictionary is available; then the same
for the user listing when its read succeeds. -/
def getDictionaries (bundled : List String) (isDirBundled : String → Bool)
    (userDirs : Option (List String)) (isDirUser : String → Bool)
    (isDictAvailable : String → Bool) : List String :=
  bundled.filter (fun d => anchoredTagTest d && isDirBundled d && isDictAvailable d) ++
    (match userDirs with
     | some ds => ds.filter (fun d => anchoredTagTest d && isDirUser d && isDictAvailable d)
     | none => [])

/-- Stated from the words of the claim: a translation file name of
exactly the strict shape, lowercase letters 1 to 3, underscore, uppercase
letters 1 to 3, followed by exactly the dot json extension. -/
def strictLangShapeSpec (s : String) : Bool :=
  [1, 2, 3].any (fun l => [1, 2, 3].any (fun u =>
    let cs := s.toList
    cs.length == l + 1 + u + 5 &&
    (cs.take l).all isLowerAZ &&
    cs.get? l == some '_' &&
    ((cs.drop (l + 1)).take u).all isUpperAZ &&
    cs.drop (l + 1 + u) == ".json".toList))

/-- Does the first list begin with the second? -/
def leadsWith : List Char → List Char → Bool
  | _, [] => true
  | [], _ :: _ => false
  | c :: cs, n :: ns => c == n && leadsWith cs ns

/-- Translation of hay.indexOf(needle) being bigger than minus one: the
needle occurs as a contiguous run of the hay. -/
def containsSeq (needle : List Char) : List Char → Bool
  | [] => needle.isEmpty
  | c :: t => leadsWith (c :: t) needle || containsSeq needle t

/-- Translation of parts.join(delim) for character-list strings. -/
def joinCh (sep : Char) : List (List Char) → List Char
  | [] => []
  | [s] => s
  | s :: rest => s ++ sep :: joinCh sep rest

/-- The slash toggle of checkSystem: with a trailing slash drop it,
otherwise append one (on the empty string the last character read is
undefined, so a slash is appended). -/
def slashToggle (x : List Char) : List Char :=
  match x.getLast? with
  | some '/' => x.dropLast
  | _ => x ++ ['/']

/-- The loop of checkSystem over the additional platform directories:
push x onto the split search path unless x or its slash toggle is already
a component. -/
def augmentLoop (nPATH : List (List Char)) : List (List Char) → List (List Char)
  | [] => nPATH
  | x :: xs =>
      let y := slashToggle x
      if !nPATH.contains x && !nPATH.contains y then augmentLoop (nPATH ++ [x]) xs
      else augmentLoop nPATH xs

/-- First half of the search-path augmentation of checkSystem: when the
additional-directory list is nonempty, split the search path on the
platform delimiter, run the push loop and join back. -/
def augmentAdditional (delim : Char) (additional : List (List Char)) (path : List Char) : List Char :=
  if additional.isEmpty then path
  else joinCh delim (augmentLoop (splitCh delim path) additional)

/-- Second half of the augmentation, once per configured binary: when the
directory part of the configured value is nonempty and does not occur as
a substring of the search path, append delimiter plus directory. -/
def appendDirIfMissing (delim : Char) (dir : List Char) (path : List Char) : List Char :=
  if dir.length > 0 then
    if containsSeq dir path then path else path ++ delim :: dir
  else path

/-- The whole search-path augmentation of checkSystem, parametric in the
platform delimiter, the platform additional-directory list, and the
directory parts of the configured xelatex and pandoc values (path.dirname
of configuration strings the run does not change).  The uuid step of
checkSystem does not touch the search path. -/
def checkSystemPath (delim : Char) (additional : List (List Char))
    (xelatexDir pandocDir : List Char) (path : List Char) : List Char :=
  appendDirIfMissing delim pandocDir
    (appendDirIfMissing delim xelatexDir
      (augmentAdditional delim additional path))

/-- Method wrapper recording the update events emitted by addPath: its
body contains no emit call. -/
def addPathM (ignoreFile isDir : String → Bool) (openPaths : List String) (p : String) :
    (List String × Bool) × Nat :=
  (addPath ignoreFile isDir openPaths p, 0)

/-- Method wrapper recording the update events emitted by removePath: its
body contains no emit call. -/
def removePathM (openPaths : List String) (p : String) : List String × Nat :=
  (removePath openPaths p, 0)

/-- Method wrapper recording the update events emitted by checkPaths: the
openPaths prune and the selectedDicts prune, with no emit call. -/
def checkPathsM (pathExists isDir isDictAvailable : String → Bool)
    (openPaths selectedDicts : List String) : (List String × List String) × Nat :=
  ((checkPathsOpen pathExists isDir openPaths, pruneLoop isDictAvailable selectedDicts), 0)

/-- A heap-level JavaScript value, for the aliasing claim about the global
config getter: a primitive, or a reference to a heap node.  Objects and
arrays are reference values in JavaScript; strings and other primitives
are copied by value. -/
inductive HVal where
  | null : HVal
  | bool : Bool → HVal
  | num : Int → HVal
  | str : String → HVal
  | ref : Nat → HVal
deriving DecidableEq

/-- A heap node: a plain object (field list) or an array. -/
inductive HNode where
  | obj : List (String × HVal) → HNode
  | arr : List HVal → HNode

/-- The object graph: allocated nodes keyed by address, plus the next
fresh address. -/
structure Heap where
  nodes : List (Nat × HNode)
  next : Nat

/-- Address lookup. -/
def findNode (h : Heap) (a : Nat) : Option HNode :=
  (h.nodes.find? (fun e => e.1 == a)).map (fun e => e.2)

/-- The child values of a node. -/
def nodeVals : HNode → List HVal
  | .obj kvs => kvs.map (fun kv => kv.2)
  | .arr xs => xs

/-- The addresses referenced directly by a node. -/
def nodeRefs (nd : HNode) : List Nat :=
  (nodeVals nd).filterMap (fun v => match v with | .ref a => some a | _ => none)

/-- Traverse a list through an option-returning function. -/
def optionTraverse (f : α → Option β) : List α → Option (List β)
  | [] => some []
  | x :: xs =>
      match f x, optionTraverse f xs with
      | some y, some ys => some (y :: ys)
      | _, _ => none

/-- One dereferencing level of reading a tree out of the heap, with the
recursion abstracted; dangling references read as none. -/
def readValStep (rec : HVal → Option JValue) (h : Heap) : HVal → Option JValue
  | .null => some .null
  | .bool b => some (.bool b)
  | .num n => some (.num n)
  | .str s => some (.str s)
  | .ref a =>
      match findNode h a with
      | some (.obj kvs) =>
          (optionTraverse (fun kv => (rec kv.2).map (fun j => (kv.1, j))) kvs).map JValue.obj
      | some (.arr xs) => (optionTraverse rec xs).map JValue.arr
      | none => none

/-- Read the value tree rooted at a heap value, as JSON.stringify walks
it; the fuel bounds the dereferencing depth (a cyclic graph, on which
stringify throws, exhausts any fuel). -/
def readVal (h : Heap) : Nat → HVal → Option JValue
  | 0, _ => none
  | fuel + 1, v => readValStep (readVal h fuel) h v

/-- One level of the address set reachable from a heap value. -/
def reachStep (rec : HVal → List Nat) (h : Heap) : HVal → List Nat
  | .ref a =>
      a :: (match findNode h a with
            | some nd => ((nodeVals nd).map rec).flatten
            | none => [])
  | _ => []

/-- The addresses reachable from a heap value within the fuel depth. -/
def reachFrom (h : Heap) : Nat → HVal → List Nat
  | 0, _ => []
  | fuel + 1, v => reachStep (reachFrom h fuel) h v

mutual

/-- Allocation of a fresh object graph for a value tree, as JSON.parse
performs it: children are allocated before their parent, so every node
references strictly smaller addresses, all fresh. -/
def allocVal (h : Heap) : JValue → HVal × Heap
  | .null => (.null, h)
  | .bool b => (.bool b, h)
  | .num n => (.num n, h)
  | .str s => (.str s, h)
  | .obj kvs =>
      match allocFields h kvs with
      | (kvs', h') =>
          (.ref h'.next,
            { nodes := h'.nodes ++ [(h'.next, .obj kvs')], next := h'.next + 1 })
  | .arr xs =>
      match allocElems h xs with
      | (xs', h') =>
          (.ref h'.next,
            { nodes := h'.nodes ++ [(h'.next, .arr xs')], next := h'.next + 1 })
termination_by j => sizeOf j

/-- Allocate the fields of an object in order, threading the heap. -/
def allocFields (h : Heap) : List (String × JValue) → List (String × HVal) × Heap
  | [] => ([], h)
  | (k, j) :: rest =>
      match allocVal h j with
      | (v, h1) =>
          match allocFields h1 rest with
          | (rest', h2) => ((k, v) :: rest', h2)
termination_by kvs => sizeOf kvs

/-- Allocate the elements of an array in order, threading the heap. -/
def allocElems (h : Heap) : List JValue → List HVal × Heap
  | [] => ([], h)
  | j :: rest =>
      match allocVal h j with
      | (v, h1) =>
          match allocElems h1 rest with
          | (rest', h2) => (v :: rest', h2)
termination_by xs => sizeOf xs

end

/-- Heap-level hasOwnProperty, as in the pure model: throws on null; an
object node owns its keys, an array node its indices and length, a boxed
string its indices and length. -/
def hasOwnH (h : Heap) (v : HVal) (k : String) : Except Unit Bool :=
  match v with
  | .null => .error ()
  | .ref a =>
      match findNode h a with
      | some (.obj kvs) => .ok (kvs.any (fun kv => kv.1 == k))
      | some (.arr xs) => .ok (k == "length" || (isIndexString k && indexVal k < xs.length))
      | none => .ok false
  | .str s => .ok (k == "length" || (isIndexString k && indexVal k < s.length))
  | _ => .ok false

/-- Heap-level property read, used after hasOwnProperty returned true. -/
def getPropH (h : Heap) (v : HVal) (k : String) : HVal :=
  match v with
  | .ref a =>
      match findNode h a with
      | some (.obj kvs) =>
          match kvs.find? (fun kv => kv.1 == k) with
          | some kv => kv.2
          | none => .null
      | some (.arr xs) =>
          if k == "length" then .num xs.length
          else (xs.get? (indexVal k)).getD .null
      | none => .null
  | .str s =>
      if k == "length" then .num s.length
      else match s.toList.get? (indexVal k) with
        | some c => .str (String.mk [c])
        | none => .null
  | _ => .null

/-- The nested loop of get: walk all dot segments, calling hasOwnProperty
at each (throwing on null) and returning null on the first miss. -/
def getWalkH (h : Heap) : HVal → List String → Except Unit HVal
  | cfg, [] => .ok cfg
  | cfg, arg :: rest =>
      match hasOwnH h cfg arg with
      | .error _ => .error ()
      | .ok true => getWalkH h (getPropH h cfg arg) rest
      | .ok false => .ok .null

/-- Translation of ZettlrConfig.prototype get(attr) over the heap: a
falsy attribute (absent or empty) returns the whole live tree (the
getConfig branch); an attribute with a dot after position zero walks the
split segments; otherwise a plain owned attribute is read directly and a
missing one reads as null. -/
def hGet (h : Heap) (config : HVal) (attr : Option String) : Except Unit HVal :=
  match attr with
  | none => .ok config
  | some a =>
      if a == "" then .ok config
      else if dotAfterStart a then getWalkH h config (jsSplit '.' a)
      else
        match hasOwnH h config a with
        | .error _ => .error ()
        | .ok true => .ok (getPropH h config a)
        | .ok false => .ok .null

/-- Translation of the global config getter installed in the constructor:
JSON.parse(JSON.stringify(this.get(key))).  The stringify walk reads the
tree out of the heap (fuel one past the address bound suffices for every
well-formed heap) and the parse allocates a fresh copy. -/
def globalConfigGet (h : Heap) (config : HVal) (attr : Option String) :
    Except Unit (HVal × Heap) :=
  match hGet h config attr with
  | .error _ => .error ()
  | .ok v =>
      match readVal h (h.next + 1) v with
      | none => .error ()
      | some j => .ok (allocVal h j)

/-- Replace the node at one address (the heap effect of a caller mutating
an object or array it can reach). -/
def replaceNode (h : Heap) (a : Nat) (nd : HNode) : Heap :=
  { nodes := h.nodes.map (fun e => if e.1 == a then (e.1, nd) else e), next := h.next }

/-- Well-formed heap: addresses are unique and below the bound, and every
node holds references strictly below its own address that are allocated.
Graphs built by allocation (JSON.parse) satisfy this, and it rules out
cycles. -/
def heapWF (h : Heap) : Prop :=
  (h.nodes.map (fun e => e.1)).Nodup ∧
  ∀ e ∈ h.nodes, e.1 < h.next ∧
    ∀ b ∈ nodeRefs e.2, b < e.1 ∧ findNode h b ≠ none

/-- Well-formed heap value: a reference points below the bound and at an
allocated node. -/
def valWF (h : Heap) (v : HVal) : Prop :=
  match v with
  | .ref a => a < h.next ∧ findNode h a ≠ none
  | _ => True

/-! Theorems.  Each claim has exactly one top-level theorem, preceded by
helper lemmas shared across claims. -/

theorem localeLoop_eq_find (mainlang : String) (lang : Option String) :
    ∀ supported : List String,
      localeLoop mainlang lang supported =
        supported.find? (localeMatchSpec mainlang lang) := by
  intro supported
  induction supported with
  | nil => rfl
  | cons sup rest ih =>
      simp only [localeLoop, List.find?, localeMatchSpec]
      cases hml : ((jsSplit '_' sup).headD "" == mainlang) with
      | false => simp [hml, ih]
      | true =>
          cases lang with
          | none => simp [hml]
          | some lg =>
              cases hsl : ((jsSplit '_' sup).get? 1 == some lg) with
              | false =>
                  rw [beq_eq_false_iff_ne] at hsl
                  simp only [List.get?_eq_getElem?] at hsl
                  simp [hml, hsl, ih]
              | true =>
                  rw [beq_iff_eq] at hsl
                  simp only [List.get?_eq_getElem?] at hsl
                  simp [hml, hsl]

/-- C7: getLocale splits the raw locale on dashes into a main part and an
optional sub part, and returns the first supported tag whose main part
equals the raw main part and whose sub part matches the raw sub part when
one is given (a tag with the right main part but a different sub part is
skipped and iteration continues) or the first tag with the right main
part when the raw sub part is null; with no match it returns the fixed
default en_US. -/
theorem c7_getLocale_first_match (supported : List String) (rawLocale : String) :
    getLocale supported rawLocale =
      ((supported.find? (localeMatchSpec (rawMainOf rawLocale) (rawSubOf rawLocale))).getD
        "en_US") := by
  unfold getLocale
  rw [localeLoop_eq_find]

/-- C1 (amended): when the backing config file exists but its contents do
not parse, load() behaves exactly as when the file is absent: the catch
block writes the serialized default template over the backing file and
returns normally, so startup continues with the default tree and the
previous file contents are lost; no exception escapes and no merge runs. -/
theorem c1_load_parse_failure_overwrites :
    ∀ tpl : JValue,
      loadOp tpl (some none) = (tpl, some tpl, 0, false) ∧
      loadOp tpl none = (tpl, some tpl, 0, false) :=
  fun _ => ⟨rfl, rfl⟩

/-- C1 counterexample: at a concrete template, with the backing file
present but unparseable, load returns normally (no startup abort), the
live tree silently falls back to the default template, and the backing
file is overwritten with the template; the claim asserts the opposite on
all three points. -/
theorem c1_counterexample :
    (loadOp (cfgtpl 1920 [] "en_US") (some none)).2.2.2 = false ∧
    (loadOp (cfgtpl 1920 [] "en_US") (some none)).1 = cfgtpl 1920 [] "en_US" ∧
    (loadOp (cfgtpl 1920 [] "en_US") (some none)).2.1 = some (cfgtpl 1920 [] "en_US") :=
  ⟨rfl, rfl, rfl⟩


/-- C8 (amended): getDictionaries admits an entry if and only if its whole
name matches the anchored strict pattern (and the external directory and
availability checks pass); getSupportedLangs, whose regex is not
anchored, admits an entry if and only if the pattern with the json
extension occurs somewhere inside the name, pushing the name up to its
last dot — every name of exactly the strict shape is admitted, but longer
names containing such a run are admitted as well.  An absent user
directory (none) contributes no entries. -/
theorem c8_resource_name_filters :
    (∀ (bundled : List String) (userFiles : Option (List String)) (s : String),
      s ∈ getSupportedLangs bundled userFiles ↔
        ∃ f, langPatTest f = true ∧ stripExt f = s ∧
          (f ∈ bundled ∨ f ∈ userFiles.getD [])) ∧
    (∀ (bundled : List String) (isDirBundled : String → Bool)
        (userDirs : Option (List String)) (isDirUser isDictAvailable : String → Bool)
        (d : String),
      d ∈ getDictionaries bundled isDirBundled userDirs isDirUser isDictAvailable ↔
        (anchoredTagTest d = true ∧ isDictAvailable d = true ∧
          ((d ∈ bundled ∧ isDirBundled d = true) ∨
            (d ∈ userDirs.getD [] ∧ isDirUser d = true)))) ∧
    (∀ f : String, strictLangShapeSpec f = true → langPatTest f = true) := by
  refine ⟨?_, ?_, ?_⟩
  · intro bundled userFiles s
    cases userFiles with
    | none =>
        simp only [getSupportedLangs, List.append_nil, List.mem_map, List.mem_filter,
          Option.getD_none, List.not_mem_nil, or_false]
        tauto
    | some us =>
        simp only [getSupportedLangs, List.mem_append, List.mem_map, List.mem_filter,
          Option.getD_some]
        aesop
  · intro bundled isDirB userDirs isDirU avail d
    cases userDirs with
    | none =>
        simp only [getDictionaries, List.append_nil, List.mem_filter, Bool.and_eq_true,
          Option.getD_none, List.not_mem_nil, false_and, or_false]
        tauto
    | some us =>
        simp only [getDictionaries, List.mem_append, List.mem_filter, Bool.and_eq_true,
          Option.getD_some]
        aesop
  · intro f hstrict
    simp only [strictLangShapeSpec, List.any_eq_true] at hstrict
    obtain ⟨l, hl, u, hu, hcond⟩ := hstrict
    simp only [Bool.and_eq_true, beq_iff_eq] at hcond
    obtain ⟨⟨⟨⟨hlen, hlow⟩, hund⟩, hup⟩, hext⟩ := hcond
    simp only [langPatTest, List.any_eq_true]
    refine ⟨0, ?_, l, hl, u, hu, ?_⟩
    · simp
    · simp only [langSegMatch, List.drop_zero, Bool.and_eq_true, beq_iff_eq]
      refine ⟨⟨⟨⟨?_, hlow⟩, hund⟩, hup⟩, ?_⟩
      · simp only [decide_eq_true_eq]
        omega
      · rw [hext]
        decide

/-- C8 counterexample: the file name with four leading lowercase letters
is not of the strict shape, yet getSupportedLangs admits it, because the
translation regex is unanchored and matches a run inside the name; the
claim asserts names not of exactly the strict shape are excluded. -/
theorem c8_counterexample :
    langPatTest "eeen_US.json" = true ∧
    strictLangShapeSpec "eeen_US.json" = false ∧
    getSupportedLangs ["eeen_US.json"] none = ["eeen_US"] := by
  refine ⟨by decide, by decide, ?_⟩
  decide

theorem updateOp_emits_pos (newcfg oldcfg : JValue)
    (h : (updateOp newcfg oldcfg).2.2 = false) : 1 ≤ (updateOp newcfg oldcfg).2.1 := by
  cases oldcfg with
  | obj kvs =>
      rcases hf : updateFields newcfg kvs with ⟨kvs', e, t⟩
      cases t <;> simp [updateOp, hf] at h ⊢
  | arr xs =>
      rcases hf : updateElems newcfg xs 0 with ⟨xs', e, t⟩
      cases t <;> simp [updateOp, hf] at h ⊢
  | str s =>
      cases hsl : s.length with
      | zero => simp [updateOp, hsl]
      | succ n => cases newcfg <;> simp [updateOp, hsl] at h ⊢
  | null => simp [updateOp]
  | bool b => simp [updateOp]
  | num n => simp [updateOp]

theorem updateFields_cons (newcfg : JValue) (k : String) (v : JValue)
    (rest : List (String × JValue)) :
    updateFields newcfg ((k, v) :: rest) =
      match hasOwnE newcfg k with
      | .error _ => ((k, v) :: rest, 0, true)
      | .ok own =>
          if own then
            match v with
            | .obj fs =>
                let c := updateOp (getProp newcfg k) (.obj fs)
                if c.2.2 then ((k, c.1) :: rest, c.2.1, true)
                else
                  let r := updateFields newcfg rest
                  ((k, c.1) :: r.1, c.2.1 + r.2.1, r.2.2)
            | _ =>
                let r := updateFields newcfg rest
                ((k, getProp newcfg k) :: r.1, r.2.1, r.2.2)
          else
            let r := updateFields newcfg rest
            ((k, v) :: r.1, r.2.1, r.2.2) := by
  cases v with
  | obj fs => exact updateFields.eq_2 newcfg k rest fs
  | null => exact updateFields.eq_3 newcfg k _ rest (by intro fs hcon; cases hcon)
  | bool b => exact updateFields.eq_3 newcfg k _ rest (by intro fs hcon; cases hcon)
  | num n => exact updateFields.eq_3 newcfg k _ rest (by intro fs hcon; cases hcon)
  | str s => exact updateFields.eq_3 newcfg k _ rest (by intro fs hcon; cases hcon)
  | arr xs => exact updateFields.eq_3 newcfg k _ rest (by intro fs hcon; cases hcon)

theorem updateFields_emits_zero_iff (newcfg : JValue) :
    ∀ kvs : List (String × JValue),
      (updateFields newcfg kvs).2.2 = false →
      ((updateFields newcfg kvs).2.1 = 0 ↔
        ∀ kv ∈ kvs, hasOwnE newcfg kv.1 = .ok true → ∀ fs, kv.2 ≠ JValue.obj fs) := by
  intro kvs
  induction kvs with
  | nil => intro _; simp [updateFields]
  | cons kv rest ih =>
      rcases kv with ⟨k, v⟩
      intro h
      cases hown : hasOwnE newcfg k with
      | error e => simp [updateFields_cons, hown] at h
      | ok b =>
          cases b with
          | false =>
              rcases hr : updateFields newcfg rest with ⟨rest', re, rt⟩
              have hstep : updateFields newcfg ((k, v) :: rest) = ((k, v) :: rest', re, rt) := by
                cases v <;> simp [updateFields_cons, hown, hr]
              rw [hstep] at h ⊢
              have hih := ih (by rw [hr]; exact h)
              rw [hr] at hih
              simp only [List.forall_mem_cons, hown]
              try simp only at hih
              rw [hih]
              simp
          | true =>
              cases v with
              | obj fs =>
                  rcases hc : updateOp (getProp newcfg k) (.obj fs) with ⟨v', ce, ct⟩
                  cases ct with
                  | true =>
                      have hstep : updateFields newcfg ((k, .obj fs) :: rest) =
                          ((k, v') :: rest, ce, true) := by
                        simp [updateFields_cons, hown, hc]
                      rw [hstep] at h
                      simp at h
                  | false =>
                      rcases hr : updateFields newcfg rest with ⟨rest', re, rt⟩
                      have hstep : updateFields newcfg ((k, .obj fs) :: rest) =
                          ((k, v') :: rest', ce + re, rt) := by
                        simp [updateFields_cons, hown, hc, hr]
                      rw [hstep] at h ⊢
                      have hce : 1 ≤ ce := by
                        have hp := updateOp_emits_pos (getProp newcfg k) (.obj fs) (by rw [hc])
                        rw [hc] at hp
                        exact hp
                      simp only [List.forall_mem_cons, hown]
                      constructor
                      · intro he
                        exact absurd he (by omega)
                      · rintro ⟨hhead, _⟩
                        exact absurd rfl (hhead trivial fs)
              | null =>
                  rcases hr : updateFields newcfg rest with ⟨rest', re, rt⟩
                  have hstep : updateFields newcfg ((k, .null) :: rest) =
                      ((k, getProp newcfg k) :: rest', re, rt) := by
                    simp [updateFields_cons, hown, hr]
                  rw [hstep] at h ⊢
                  have hih := ih (by rw [hr]; exact h)
                  rw [hr] at hih
                  try simp only at hih
                  simp only [List.forall_mem_cons, hown]
                  rw [hih]
                  simp
              | bool bb =>
                  rcases hr : updateFields newcfg rest with ⟨rest', re, rt⟩
                  have hstep : updateFields newcfg ((k, .bool bb) :: rest) =
                      ((k, getProp newcfg k) :: rest', re, rt) := by
                    simp [updateFields_cons, hown, hr]
                  rw [hstep] at h ⊢
                  have hih := ih (by rw [hr]; exact h)
                  rw [hr] at hih
                  try simp only at hih
                  simp only [List.forall_mem_cons, hown]
                  rw [hih]
                  simp
              | num nn =>
                  rcases hr : updateFields newcfg rest with ⟨rest', re, rt⟩
                  have hstep : updateFields newcfg ((k, .num nn) :: rest) =
                      ((k, getProp newcfg k) :: rest', re, rt) := by
                    simp [updateFields_cons, hown, hr]
                  rw [hstep] at h ⊢
                  have hih := ih (by rw [hr]; exact h)
                  rw [hr] at hih
                  try simp only at hih
                  simp only [List.forall_mem_cons, hown]
                  rw [hih]
                  simp
              | str ss =>
                  rcases hr : updateFields newcfg rest with ⟨rest', re, rt⟩
                  have hstep : updateFields newcfg ((k, .str ss) :: rest) =
                      ((k, getProp newcfg k) :: rest', re, rt) := by
                    simp [updateFields_cons, hown, hr]
                  rw [hstep] at h ⊢
                  have hih := ih (by rw [hr]; exact h)
                  rw [hr] at hih
                  try simp only at hih
                  simp only [List.forall_mem_cons, hown]
                  rw [hih]
                  simp
              | arr aa =>
                  rcases hr : updateFields newcfg rest with ⟨rest', re, rt⟩
                  have hstep : updateFields newcfg ((k, .arr aa) :: rest) =
                      ((k, getProp newcfg k) :: rest', re, rt) := by
                    simp [updateFields_cons, hown, hr]
                  rw [hstep] at h ⊢
                  have hih := ih (by rw [hr]; exact h)
                  rw [hr] at hih
                  try simp only at hih
                  simp only [List.forall_mem_cons, hown]
                  rw [hih]
                  simp

/-- C3 (amended): a completed top-level update call emits one update
event per update invocation, the recursive sub-merges included: the count
is one exactly when no key of the old tree that the new tree also owns
holds a plain-object value (so no recursion happens), and at least two
otherwise; it is never zero. -/
theorem c3_update_emits_per_invocation (newcfg : JValue) (kvs : List (String × JValue))
    (h : (updateOp newcfg (.obj kvs)).2.2 = false) :
    1 ≤ (updateOp newcfg (.obj kvs)).2.1 ∧
    ((updateOp newcfg (.obj kvs)).2.1 = 1 ↔
      ∀ kv ∈ kvs, hasOwnE newcfg kv.1 = .ok true → ∀ fs, kv.2 ≠ JValue.obj fs) := by
  rcases hf : updateFields newcfg kvs with ⟨kvs', e, t⟩
  cases t with
  | true =>
      have : (updateOp newcfg (.obj kvs)).2.2 = true := by simp [updateOp, hf]
      rw [this] at h
      cases h
  | false =>
      have hres : updateOp newcfg (.obj kvs) = (.obj kvs', e + 1, false) := by
        simp [updateOp, hf]
      have hiff := updateFields_emits_zero_iff newcfg kvs (by rw [hf])
      rw [hf] at hiff
      try simp only at hiff
      rw [hres]
      simp only
      constructor
      · omega
      · rw [← hiff]
        omega

/-- C3 counterexample: a top-level update whose merge recurses into one
sub-tree emits two update events, not the single one the claim
promises. -/
theorem c3_counterexample :
    (updateOp (.obj [("pdf", .obj [("fontsize", .num 14)])])
        (.obj [("pdf", .obj [("fontsize", .num 12)])])).2 = (2, false) := by
  simp [updateOp, updateFields, hasOwnE, getProp]

theorem c3_update_emits_per_invocation_witness :
    1 ≤ (updateOp (.obj [("darkTheme", .bool true)])
          (.obj [("darkTheme", .bool false)])).2.1 ∧
    ((updateOp (.obj [("darkTheme", .bool true)])
          (.obj [("darkTheme", .bool false)])).2.1 = 1 ↔
      ∀ kv ∈ [(("darkTheme" : String), JValue.bool false)],
        hasOwnE (.obj [("darkTheme", .bool true)]) kv.1 = .ok true →
          ∀ fs, kv.2 ≠ JValue.obj fs) :=
  c3_update_emits_per_invocation (.obj [("darkTheme", .bool true)])
    [("darkTheme", .bool false)]
    (by simp [updateOp, updateFields, hasOwnE])

theorem c8_resource_name_filters_witness :
    strictLangShapeSpec "en_US.json" = true ∧ langPatTest "en_US.json" = true :=
  ⟨by decide, c8_resource_name_filters.2.2 "en_US.json" (by decide)⟩

theorem list_set_get_self {α : Type} (d : α) :
    ∀ (xs : List α) (i : Nat), xs.set i ((xs.get? i).getD d) = xs := by
  intro xs
  induction xs with
  | nil => intro i; rfl
  | cons x rest ih =>
      intro i
      cases i with
      | zero => rfl
      | succ j =>
          have hj := ih j
          simp only [List.get?_eq_getElem?] at hj
          simp [List.set, hj]

theorem setField_self : ∀ (kvs : List (String × JValue)) (k : String),
    setField kvs k (getProp (.obj kvs) k) = kvs := by
  intro kvs
  induction kvs with
  | nil => intro k; rfl
  | cons kv rest ih =>
      intro k
      cases hk : (kv.1 == k) with
      | true =>
          simp only [setField, getProp, List.find?, hk]
          exact congrArg (fun z => z :: rest) rfl
      | false =>
          have hgp : getProp (.obj (kv :: rest)) k = getProp (.obj rest) k := by
            simp only [getProp, List.find?, hk]
          simp only [setField, hk, Bool.false_eq_true, if_false, hgp]
          rw [ih k]

theorem assign_getProp_self (v : JValue) (k : String) (hv : v ≠ .null) :
    assignProp v k (getProp v k) = .ok v := by
  cases v with
  | null => exact absurd rfl hv
  | obj kvs => simp only [assignProp, setField_self]
  | arr xs =>
      cases hl : (k == "length") with
      | true =>
          simp only [assignProp, getProp, hl, if_true]
          have h0 : ¬((xs.length : Int) < 0) := by
            simp
          rw [if_neg h0]
          simp
      | false =>
          cases hidx : isIndexString k with
          | true =>
              simp only [assignProp, getProp, hl, Bool.false_eq_true, if_false, hidx, if_true]
              rw [list_set_get_self]
          | false =>
              simp [assignProp, hl, hidx]
  | str s => rfl
  | bool b => rfl
  | num n => rfl

theorem hasOwnE_ok_ne_null {v : JValue} {k : String} {b : Bool}
    (h : hasOwnE v k = .ok b) : v ≠ .null := by
  intro hne
  rw [hne] at h
  cases h

theorem setWalk_reject (rules : Rules) (option : String) (value : JValue) :
    ∀ (args : List String) (cfg : JValue) (prop : String),
      (setWalk rules option value cfg args prop).2.2 ≠ .ok true →
      (setWalk rules option value cfg args prop).1 = cfg ∧
        (setWalk rules option value cfg args prop).2.1 = 0 := by
  intro args
  induction args with
  | nil =>
      intro cfg prop h
      cases hown : hasOwnE cfg prop with
      | error e => simp [setWalk, hown]
      | ok b =>
          cases b with
          | false => simp [setWalk, hown]
          | true =>
              cases hval : validateKey rules option value with
              | false => simp [setWalk, hown, hval]
              | true =>
                  cases hass : assignProp cfg prop value with
                  | error e => simp [setWalk, hown, hval, hass]
                  | ok cfg' =>
                      exfalso
                      exact h (by simp [setWalk, hown, hval, hass])
  | cons arg rest ih =>
      intro cfg prop h
      cases hown : hasOwnE cfg arg with
      | error e => simp [setWalk, hown]
      | ok b =>
          cases b with
          | false => simp [setWalk, hown]
          | true =>
              have hne := hasOwnE_ok_ne_null hown
              have hret : (setWalk rules option value cfg (arg :: rest) prop).2.2 =
                  (setWalk rules option value (getProp cfg arg) rest prop).2.2 := by
                simp only [setWalk, hown]
                cases hass : assignProp cfg arg
                    (setWalk rules option value (getProp cfg arg) rest prop).1 with
                | error e => simp
                | ok cfg' => simp
              have hrec := ih (getProp cfg arg) prop (by rw [← hret]; exact h)
              simp only [setWalk, hown]
              rw [hrec.1, assign_getProp_self cfg arg hne]
              simp [hrec.2]

theorem lookupField_any (kvs : List (String × JValue)) (k : String) :
    (kvs.any (fun kv => kv.1 == k)) = (lookupField kvs k).isSome := by
  induction kvs with
  | nil => rfl
  | cons kv rest ih =>
      cases hk : (kv.1 == k) with
      | true => simp [lookupField, List.find?, hk]
      | false => simp [lookupField, List.find?, hk, ih, lookupField]

theorem getProp_obj_lookup {kvs : List (String × JValue)} {k : String} {c : JValue}
    (h : lookupField kvs k = some c) : getProp (.obj kvs) k = c := by
  simp only [getProp]
  simp only [lookupField] at h
  cases hf : kvs.find? (fun kv => kv.1 == k) with
  | none => rw [hf] at h; cases h
  | some kv =>
      rw [hf] at h
      have h2 : kv.2 = c := by simpa using h
      exact h2

theorem lookupField_setField_present {kvs : List (String × JValue)} {k : String}
    (h : (lookupField kvs k).isSome) (value : JValue) :
    lookupField (setField kvs k value) k = some value := by
  induction kvs with
  | nil => cases h
  | cons kv rest ih =>
      cases hk : (kv.1 == k) with
      | true => simp [setField, hk, lookupField, List.find?]
      | false =>
          simp only [lookupField, List.find?, hk] at h
          have hih := ih h
          simp only [setField, hk, Bool.false_eq_true, if_false]
          simp only [lookupField, List.find?, hk]
          exact hih

theorem setWalk_obj_char (rules : Rules) (option : String) (value : JValue) :
    ∀ (args : List String) (cfg : JValue) (prop : String),
      objWalk cfg args = true →
      ((setWalk rules option value cfg args prop).2.2 ≠ .error ()) ∧
      ((setWalk rules option value cfg args prop).2.2 = .ok true ↔
        ((match lookupPath cfg args with
          | some (.obj kvs) => kvs.any (fun kv => kv.1 == prop)
          | _ => false) = true ∧ validateKey rules option value = true)) ∧
      ((setWalk rules option value cfg args prop).2.2 = .ok true →
        (setWalk rules option value cfg args prop).2.1 = 1 ∧
        lookupPath (setWalk rules option value cfg args prop).1 (args ++ [prop]) =
          some value) := by
  intro args
  induction args with
  | nil =>
      intro cfg prop hwalk
      cases cfg with
      | obj kvs =>
          simp only [lookupPath]
          cases hany : kvs.any (fun kv => kv.1 == prop) with
          | false =>
              have hown : hasOwnE (.obj kvs) prop = .ok false := by
                simp only [hasOwnE, hany]
              simp [setWalk, hown]
          | true =>
              have hown : hasOwnE (.obj kvs) prop = .ok true := by
                simp only [hasOwnE, hany]
              cases hval : validateKey rules option value with
              | false => simp [setWalk, hown, hval]
              | true =>
                  have hstep : setWalk rules option value (.obj kvs) [] prop =
                      (.obj (setField kvs prop value), 1, .ok true) := by
                    simp [setWalk, hown, hval, assignProp]
                  rw [hstep]
                  refine ⟨by simp, ?_, fun _ => ⟨rfl, ?_⟩⟩
                  · simp [hval]
                  · simp only [List.nil_append, lookupPath]
                    rw [lookupField_setField_present
                      (by rw [← lookupField_any]; exact hany)]
      | null => cases hwalk
      | bool b => cases hwalk
      | num n => cases hwalk
      | str s => cases hwalk
      | arr xs => cases hwalk
  | cons arg rest ih =>
      intro cfg prop hwalk
      cases cfg with
      | obj kvs =>
          cases hlk : lookupField kvs arg with
          | none =>
              have hany : kvs.any (fun kv => kv.1 == arg) = false := by
                rw [lookupField_any, hlk]; rfl
              have hown : hasOwnE (.obj kvs) arg = .ok false := by
                simp only [hasOwnE, hany]
              simp [setWalk, hown, lookupPath, hlk]
          | some child =>
              have hany : kvs.any (fun kv => kv.1 == arg) = true := by
                rw [lookupField_any, hlk]; rfl
              have hown : hasOwnE (.obj kvs) arg = .ok true := by
                simp only [hasOwnE, hany]
              have hgp : getProp (.obj kvs) arg = child := getProp_obj_lookup hlk
              have hwalk' : objWalk child rest = true := by
                simp only [objWalk, hlk] at hwalk
                exact hwalk
              have hrec := ih child prop hwalk'
              have hass : assignProp (.obj kvs) arg
                  (setWalk rules option value child rest prop).1 =
                  .ok (.obj (setField kvs arg
                    (setWalk rules option value child rest prop).1)) := rfl
              have hstep : setWalk rules option value (.obj kvs) (arg :: rest) prop =
                  (.obj (setField kvs arg (setWalk rules option value child rest prop).1),
                    (setWalk rules option value child rest prop).2.1,
                    (setWalk rules option value child rest prop).2.2) := by
                simp only [setWalk, hown, hgp, hass]
              rw [hstep]
              have hpath : lookupPath (JValue.obj kvs) (arg :: rest) = lookupPath child rest := by
                simp only [lookupPath, hlk]
              refine ⟨hrec.1, by rw [hpath]; exact hrec.2.1, fun htrue => ?_⟩
              refine ⟨(hrec.2.2 htrue).1, ?_⟩
              have hconsapp : (arg :: rest) ++ [prop] = arg :: (rest ++ [prop]) := rfl
              rw [hconsapp]
              simp only [lookupPath]
              rw [lookupField_setField_present (by rw [← lookupField_any]; exact hany)]
              exact (hrec.2.2 htrue).2
      | null => cases hwalk
      | bool b => cases hwalk
      | num n => cases hwalk
      | str s => cases hwalk
      | arr xs => cases hwalk

theorem splitCh_ne_nil (sep : Char) : ∀ cs : List Char, splitCh sep cs ≠ [] := by
  intro cs
  induction cs with
  | nil => simp [splitCh]
  | cons c rest ih =>
      simp only [splitCh]
      cases hr : splitCh sep rest with
      | nil => simp
      | cons s t =>
          cases hc : (c == sep) with
          | true => simp [hc]
          | false => simp [hc]

theorem splitCh_no_sep (sep : Char) : ∀ cs : List Char, sep ∉ cs → splitCh sep cs = [cs] := by
  intro cs
  induction cs with
  | nil => intro _; rfl
  | cons c rest ih =>
      intro hmem
      have hc : (c == sep) = false := by
        cases hcc : (c == sep) with
        | true =>
            exfalso
            apply hmem
            have hce : c = sep := eq_of_beq hcc
            rw [hce]
            exact List.mem_cons_self sep rest
        | false => rfl
      have hrest : sep ∉ rest := fun hin => hmem (List.mem_cons_of_mem c hin)
      simp only [splitCh, ih hrest, hc]
      simp

theorem stringMk_toList : ∀ s : String, String.mk s.toList = s := by
  intro s
  cases s
  rfl

theorem jsSplit_no_sep (sep : Char) (s : String) (h : sep ∉ s.toList) :
    jsSplit sep s = [s] := by
  simp only [jsSplit, splitCh_no_sep sep s.toList h, List.map]
  rw [stringMk_toList]

theorem findIdxDot_some : ∀ cs : List Char, cs.contains '.' = true →
    ∃ i, cs.findIdx? (fun c => c == '.') = some i := by
  intro cs
  induction cs with
  | nil => intro h; cases h
  | cons c rest ih =>
      intro h
      cases hc : (c == '.') with
      | true => exact ⟨0, by simp [List.findIdx?, hc]⟩
      | false =>
          have hrest : rest.contains '.' = true := by
            simp only [List.contains, List.elem_cons] at h
            rw [show ('.' == c) = false by rw [BEq.comm]; exact hc] at h
            exact h
          obtain ⟨j, hj⟩ := ih hrest
          exact ⟨j + 1, by simp [List.findIdx?, hc, hj]⟩

theorem findIdxDot_none : ∀ cs : List Char, cs.contains '.' = false →
    cs.findIdx? (fun c => c == '.') = none := by
  intro cs
  induction cs with
  | nil => intro _; rfl
  | cons c rest ih =>
      intro h
      have hc : (c == '.') = false := by
        cases hcc : (c == '.') with
        | true =>
            exfalso
            have hce : c = '.' := eq_of_beq hcc
            rw [hce] at h
            simp [List.contains, List.elem_cons] at h
        | false => rfl
      have hrest : rest.contains '.' = false := by
        simp only [List.contains, List.elem_cons] at h
        rw [show ('.' == c) = false by rw [BEq.comm]; exact hc] at h
        simpa using h
      simp [List.findIdx?, hc, ih hrest]

theorem dotAfterStart_false_of_no_dot (s : String) (h : s.toList.contains '.' = false) :
    dotAfterStart s = false := by
  simp only [dotAfterStart, findIdxDot_none s.toList h]

theorem dotAfterStart_true_of (s : String) (hdot : s.toList.contains '.' = true)
    (hhead : s.toList.head? ≠ some '.') : dotAfterStart s = true := by
  simp only [dotAfterStart]
  cases hcs : s.toList with
  | nil => rw [hcs] at hdot; cases hdot
  | cons c rest =>
      have hc : (c == '.') = false := by
        cases hcc : (c == '.') with
        | true =>
            exfalso
            apply hhead
            rw [hcs]
            simp [eq_of_beq hcc]
        | false => rfl
      have hrest : rest.contains '.' = true := by
        rw [hcs] at hdot
        simp only [List.contains, List.elem_cons] at hdot
        rw [show ('.' == c) = false by rw [BEq.comm]; exact hc] at hdot
        exact hdot
      obtain ⟨j, hj⟩ := findIdxDot_some rest hrest
      simp [List.findIdx?, hc, hj]

theorem topKeys_no_dotted_key (kvs : List (String × JValue)) (s : String)
    (htop : topKeysDotFree (.obj kvs) = true) (hdot : s.toList.contains '.' = true) :
    kvs.any (fun kv => kv.1 == s) = false := by
  simp only [topKeysDotFree, List.all_eq_true] at htop
  cases hany : kvs.any (fun kv => kv.1 == s) with
  | false => rfl
  | true =>
      exfalso
      simp only [List.any_eq_true] at hany
      obtain ⟨kv, hmem, hbeq⟩ := hany
      have hk := eq_of_beq hbeq
      have := htop kv hmem
      rw [hk] at this
      simp only [Bool.not_eq_eq_eq_not, Bool.not_true] at this
      rw [hdot] at this
      cases this

theorem dropLast_append_getLastD {α : Type} :
    ∀ (l : List α) (d : α), l ≠ [] → l.dropLast ++ [l.getLastD d] = l := by
  intro l
  induction l with
  | nil => intro d h; exact absurd rfl h
  | cons x rest ih =>
      intro d _
      cases rest with
      | nil => rfl
      | cons y t =>
          have h2 := ih x (by simp)
          calc (x :: y :: t).dropLast ++ [(x :: y :: t).getLastD d]
              = x :: ((y :: t).dropLast ++ [(y :: t).getLastD x]) := by
                simp only [List.getLastD_cons, List.dropLast, List.cons_append,
                  List.cons.injEq, true_and]
            _ = x :: (y :: t) := by rw [h2]

theorem not_mem_of_contains_false {α : Type} [BEq α] [LawfulBEq α] {a : α} {cs : List α}
    (h : cs.contains a = false) : a ∉ cs := by
  intro hm
  have helem : cs.elem a = true := List.elem_iff.mpr hm
  have : cs.contains a = true := helem
  rw [this] at h
  cases h

theorem setOpt_throw (rules : Rules) (config : JValue) (option : String) (value : JValue)
    (h : (setOpt rules config option value).ret = .error ()) :
    (setOpt rules config option value).config = config ∧
      (setOpt rules config option value).emits = 0 := by
  cases hown : hasOwnE config option with
  | error e => simp [setOpt, hown]
  | ok ownTop =>
      cases hb : (ownTop && validateKey rules option value) with
      | true =>
          cases hass : assignProp config option value with
          | error e => simp [setOpt, hown, hb, hass]
          | ok cfg' => simp [setOpt, hown, hb, hass] at h
      | false =>
          cases hd : dotAfterStart option with
          | false => simp [setOpt, hown, hb, hd] at h
          | true =>
              have hret : (setOpt rules config option value).ret =
                  (setWalk rules option value config ((jsSplit '.' option).dropLast)
                    ((jsSplit '.' option).getLastD "")).2.2 := by
                simp [setOpt, hown, hb, hd]
              have hrej := setWalk_reject rules option value
                ((jsSplit '.' option).dropLast) config ((jsSplit '.' option).getLastD "")
                (by rw [← hret, h]; intro hcon; cases hcon)
              simp only [List.getLastD_eq_getLast?] at hrej
              simp [setOpt, hown, hb, hd, hrej.1, hrej.2]

/-- C2 (amended): for a plain-object tree whose top-level keys contain no
dots, an option not starting with a dot whose dotted walk stays within
plain objects: set returns false, leaves the tree unmodified and emits no
notification exactly when the resolved leaf key does not exist or a
registered rule rejects the value; on success it writes the value at the
resolved leaf in place and emits exactly one notification; a dotless
top-level key is the direct case of the same rule.  When the walk instead
reaches a null intermediate value, set throws an exception rather than
returning false, still without mutating or notifying (second part, for
every configuration and key). -/
theorem c2_set_semantics :
    (∀ (rules : Rules) (kvs0 : List (String × JValue)) (option : String) (value : JValue),
      objWalk (.obj kvs0) ((jsSplit '.' option).dropLast) = true →
      topKeysDotFree (.obj kvs0) = true →
      option.toList.head? ≠ some '.' →
      ((setOpt rules (.obj kvs0) option value).ret ≠ .error ()) ∧
      ((setOpt rules (.obj kvs0) option value).ret = .ok true ↔
        (leafExistsSpec (.obj kvs0) option = true ∧
          validateKey rules option value = true)) ∧
      ((setOpt rules (.obj kvs0) option value).ret = .ok false →
        (setOpt rules (.obj kvs0) option value).config = .obj kvs0 ∧
        (setOpt rules (.obj kvs0) option value).emits = 0) ∧
      ((setOpt rules (.obj kvs0) option value).ret = .ok true →
        (setOpt rules (.obj kvs0) option value).emits = 1 ∧
        lookupPath (setOpt rules (.obj kvs0) option value).config (jsSplit '.' option) =
          some value)) ∧
    (∀ (rules : Rules) (config : JValue) (option : String) (value : JValue),
      (setOpt rules config option value).ret = .error () →
      (setOpt rules config option value).config = config ∧
      (setOpt rules config option value).emits = 0) := by
  refine ⟨?_, setOpt_throw⟩
  intro rules kvs0 option value hwalk htop hhead
  cases hdot : option.toList.contains '.' with
  | false =>
      have hsegs : jsSplit '.' option = [option] :=
        jsSplit_no_sep '.' option (not_mem_of_contains_false hdot)
      have hd : dotAfterStart option = false := dotAfterStart_false_of_no_dot option hdot
      have hle : leafExistsSpec (.obj kvs0) option =
          kvs0.any (fun kv => kv.1 == option) := by
        simp [leafExistsSpec, hsegs, lookupPath]
      cases hb : (kvs0.any (fun kv => kv.1 == option) && validateKey rules option value) with
      | true =>
          obtain ⟨hany, hval⟩ := Bool.and_eq_true_iff.mp hb
          have hstep : setOpt rules (.obj kvs0) option value =
              ⟨.obj (setField kvs0 option value), 1, .ok true⟩ := by
            simp [setOpt, hasOwnE, hb, assignProp]
          rw [hstep]
          refine ⟨?_, ?_, ?_, ?_⟩
          · simp
          · simp [hle, hany, hval]
          · intro hcon; cases hcon
          · intro _
            refine ⟨rfl, ?_⟩
            rw [hsegs]
            simp only [lookupPath]
            rw [lookupField_setField_present (by rw [← lookupField_any]; exact hany)]
      | false =>
          have hstep : setOpt rules (.obj kvs0) option value = ⟨.obj kvs0, 0, .ok false⟩ := by
            simp [setOpt, hasOwnE, hb, hd]
          rw [hstep]
          refine ⟨?_, ?_, ?_, ?_⟩
          · simp
          · simp only [hle]
            constructor
            · intro hcon; cases hcon
            · rintro ⟨hany, hval⟩
              rw [hany, hval] at hb
              cases hb
          · intro _; exact ⟨rfl, rfl⟩
          · intro hcon; cases hcon
  | true =>
      have hd : dotAfterStart option = true := dotAfterStart_true_of option hdot hhead
      have hany0 : kvs0.any (fun kv => kv.1 == option) = false :=
        topKeys_no_dotted_key kvs0 option htop hdot
      have hb : (kvs0.any (fun kv => kv.1 == option) && validateKey rules option value) =
          false := by rw [hany0]; rfl
      have hstep : setOpt rules (.obj kvs0) option value =
          ⟨(setWalk rules option value (.obj kvs0) ((jsSplit '.' option).dropLast)
              ((jsSplit '.' option).getLastD "")).1,
            (setWalk rules option value (.obj kvs0) ((jsSplit '.' option).dropLast)
              ((jsSplit '.' option).getLastD "")).2.1,
            (setWalk rules option value (.obj kvs0) ((jsSplit '.' option).dropLast)
              ((jsSplit '.' option).getLastD "")).2.2⟩ := by
        simp [setOpt, hasOwnE, hb, hd]
      have hchar := setWalk_obj_char rules option value
        ((jsSplit '.' option).dropLast) (.obj kvs0) ((jsSplit '.' option).getLastD "") hwalk
      have hle : leafExistsSpec (.obj kvs0) option =
          (match lookupPath (.obj kvs0) ((jsSplit '.' option).dropLast) with
           | some (.obj kvs) => kvs.any (fun kv => kv.1 == (jsSplit '.' option).getLastD "")
           | _ => false) := rfl
      rw [hstep]
      refine ⟨hchar.1, by rw [hle]; exact hchar.2.1, fun hfalse => ?_, fun htrue => ?_⟩
      · have hf2 : (setWalk rules option value (.obj kvs0) ((jsSplit '.' option).dropLast)
            ((jsSplit '.' option).getLastD "")).2.2 = .ok false := hfalse
        have hrej := setWalk_reject rules option value
          ((jsSplit '.' option).dropLast) (.obj kvs0) ((jsSplit '.' option).getLastD "")
          (by rw [hf2]; intro hcon; cases hcon)
        exact ⟨hrej.1, hrej.2⟩
      · refine ⟨(hchar.2.2 htrue).1, ?_⟩
        have happ : (jsSplit '.' option).dropLast ++ [(jsSplit '.' option).getLastD ""] =
            jsSplit '.' option := by
          apply dropLast_append_getLastD
          intro hnil
          exact splitCh_ne_nil '.' option.toList (by
            have : (splitCh '.' option.toList).map (fun cs => String.mk cs) = [] := hnil
            exact List.map_eq_nil_iff.mp this)
        have h2 := (hchar.2.2 htrue).2
        rw [happ] at h2
        exact h2

/-- C2 counterexample: on the default template, whose lastFile key is
null, set with the key lastFile.foo reaches null.hasOwnProperty and
throws a TypeError instead of returning false, although the resolved leaf
key does not exist; the claim promises a false return for every key. -/
theorem c2_counterexample :
    (setOpt [] (cfgtpl 1920 [] "en_US") "lastFile.foo" (.num 1)).ret = .error () ∧
    leafExistsSpec (cfgtpl 1920 [] "en_US") "lastFile.foo" = false :=
  ⟨rfl, rfl⟩

theorem c2_set_semantics_witness :
    ((setOpt [] (.obj [("pdf", .obj [("fontsize", .num 12)])]) "pdf.fontsize"
        (.num 14)).ret = .ok true ↔
      (leafExistsSpec (.obj [("pdf", .obj [("fontsize", .num 12)])]) "pdf.fontsize" = true ∧
        validateKey [] "pdf.fontsize" (.num 14) = true)) :=
  (c2_set_semantics.1 [] [("pdf", .obj [("fontsize", .num 12)])] "pdf.fontsize" (.num 14)
    (by decide) (by decide) (by decide)).2.1

theorem updateOp_obj_val (newcfg : JValue) (kvs : List (String × JValue)) :
    (updateOp newcfg (.obj kvs)).1 = .obj (updateFields newcfg kvs).1 := by
  rcases hf : updateFields newcfg kvs with ⟨kvs', e, t⟩
  cases t <;> simp [updateOp, hf]

theorem updateOp_obj_threw (newcfg : JValue) (kvs : List (String × JValue))
    (h : (updateOp newcfg (.obj kvs)).2.2 = false) :
    (updateFields newcfg kvs).2.2 = false := by
  rcases hf : updateFields newcfg kvs with ⟨kvs', e, t⟩
  cases t with
  | false => rfl
  | true =>
      exfalso
      have : (updateOp newcfg (.obj kvs)).2.2 = true := by simp [updateOp, hf]
      rw [this] at h
      cases h

theorem updateFields_keys (newcfg : JValue) :
    ∀ kvs : List (String × JValue),
      ((updateFields newcfg kvs).1.map (fun kv => kv.1)) = kvs.map (fun kv => kv.1) := by
  intro kvs
  induction kvs with
  | nil => simp [updateFields]
  | cons kv rest ih =>
      rcases kv with ⟨k, v⟩
      rw [updateFields_cons]
      cases hown : hasOwnE newcfg k with
      | error e => simp
      | ok own =>
          cases own with
          | false => simp [ih]
          | true =>
              cases v with
              | obj fs =>
                  cases hc : (updateOp (getProp newcfg k) (.obj fs)).2.2 with
                  | true => simp [hc]
                  | false => simp [hc, ih]
              | null => simp [ih]
              | bool b => simp [ih]
              | num n => simp [ih]
              | str s => simp [ih]
              | arr xs => simp [ih]

theorem updateFields_lookup (newcfg : JValue) :
    ∀ kvs : List (String × JValue),
      ((kvs.map (fun kv => kv.1)).Nodup) →
      (updateFields newcfg kvs).2.2 = false →
      ∀ k v, (k, v) ∈ kvs →
        lookupField (updateFields newcfg kvs).1 k =
          some (match hasOwnE newcfg k, v with
                | .ok true, .obj fs => (updateOp (getProp newcfg k) (.obj fs)).1
                | .ok true, _ => getProp newcfg k
                | _, _ => v) := by
  intro kvs
  induction kvs with
  | nil => intro _ _ k v hmem; cases hmem
  | cons kv0 rest ih =>
      rcases kv0 with ⟨k0, v0⟩
      intro hnd h k v hmem
      have hnd0 : k0 ∉ rest.map (fun kv => kv.1) := by
        simp only [List.map_cons, List.nodup_cons] at hnd
        exact hnd.1
      have hndrest : (rest.map (fun kv => kv.1)).Nodup := by
        simp only [List.map_cons, List.nodup_cons] at hnd
        exact hnd.2
      cases hown : hasOwnE newcfg k0 with
      | error e =>
          exfalso
          rw [updateFields_cons] at h
          simp [hown] at h
      | ok own =>
          cases own with
          | false =>
              rcases hr : updateFields newcfg rest with ⟨rest', re, rt⟩
              have hstep : updateFields newcfg ((k0, v0) :: rest) =
                  ((k0, v0) :: rest', re, rt) := by
                cases v0 <;> simp [updateFields_cons, hown, hr]
              rw [hstep] at h ⊢
              rcases List.mem_cons.mp hmem with heq | hmem
              · injection heq with hk hv
                subst hk
                subst hv
                simp only [lookupField, List.find?, beq_self_eq_true, hown]
                rfl
              · have hk : (k0 == k) = false := by
                  rw [beq_eq_false_iff_ne]
                  intro he
                  apply hnd0
                  rw [he]
                  exact List.mem_map_of_mem (fun kv => kv.1) hmem
                have hrec := ih hndrest (by rw [hr]; exact h) k v hmem
                rw [hr] at hrec
                simp only [lookupField, List.find?, hk]
                exact hrec
          | true =>
              cases v0 with
              | obj fs =>
                  rcases hc : updateOp (getProp newcfg k0) (.obj fs) with ⟨v', ce, ct⟩
                  cases ct with
                  | true =>
                      exfalso
                      rw [updateFields_cons] at h
                      simp [hown, hc] at h
                  | false =>
                      rcases hr : updateFields newcfg rest with ⟨rest', re, rt⟩
                      have hstep : updateFields newcfg ((k0, .obj fs) :: rest) =
                          ((k0, v') :: rest', ce + re, rt) := by
                        simp [updateFields_cons, hown, hc, hr]
                      rw [hstep] at h ⊢
                      rcases List.mem_cons.mp hmem with heq | hmem
                      · injection heq with hk hv
                        subst hk
                        subst hv
                        simp only [lookupField, List.find?, beq_self_eq_true, hown]
                        have hv' : (updateOp (getProp newcfg k) (.obj fs)).1 = v' := by
                          rw [hc]
                        rw [← hv']
                        rfl
                      · have hk : (k0 == k) = false := by
                          rw [beq_eq_false_iff_ne]
                          intro he
                          apply hnd0
                          rw [he]
                          exact List.mem_map_of_mem (fun kv => kv.1) hmem
                        have hrec := ih hndrest (by rw [hr]; exact h) k v hmem
                        rw [hr] at hrec
                        simp only [lookupField, List.find?, hk]
                        exact hrec
              | null =>
                  rcases hr : updateFields newcfg rest with ⟨rest', re, rt⟩
                  have hstep : updateFields newcfg ((k0, .null) :: rest) =
                      ((k0, getProp newcfg k0) :: rest', re, rt) := by
                    simp [updateFields_cons, hown, hr]
                  rw [hstep] at h ⊢
                  rcases List.mem_cons.mp hmem with heq | hmem
                  · injection heq with hk hv
                    subst hk
                    subst hv
                    simp only [lookupField, List.find?, beq_self_eq_true, hown]
                    rfl
                  · have hk : (k0 == k) = false := by
                      rw [beq_eq_false_iff_ne]
                      intro he
                      apply hnd0
                      rw [he]
                      exact List.mem_map_of_mem (fun kv => kv.1) hmem
                    have hrec := ih hndrest (by rw [hr]; exact h) k v hmem
                    rw [hr] at hrec
                    simp only [lookupField, List.find?, hk]
                    exact hrec
              | bool b =>
                  rcases hr : updateFields newcfg rest with ⟨rest', re, rt⟩
                  have hstep : updateFields newcfg ((k0, .bool b) :: rest) =
                      ((k0, getProp newcfg k0) :: rest', re, rt) := by
                    simp [updateFields_cons, hown, hr]
                  rw [hstep] at h ⊢
                  rcases List.mem_cons.mp hmem with heq | hmem
                  · injection heq with hk hv
                    subst hk
                    subst hv
                    simp only [lookupField, List.find?, beq_self_eq_true, hown]
                    rfl
                  · have hk : (k0 == k) = false := by
                      rw [beq_eq_false_iff_ne]
                      intro he
                      apply hnd0
                      rw [he]
                      exact List.mem_map_of_mem (fun kv => kv.1) hmem
                    have hrec := ih hndrest (by rw [hr]; exact h) k v hmem
                    rw [hr] at hrec
                    simp only [lookupField, List.find?, hk]
                    exact hrec
              | num n =>
                  rcases hr : updateFields newcfg rest with ⟨rest', re, rt⟩
                  have hstep : updateFields newcfg ((k0, .num n) :: rest) =
                      ((k0, getProp newcfg k0) :: rest', re, rt) := by
                    simp [updateFields_cons, hown, hr]
                  rw [hstep] at h ⊢
                  rcases List.mem_cons.mp hmem with heq | hmem
                  · injection heq with hk hv
                    subst hk
                    subst hv
                    simp only [lookupField, List.find?, beq_self_eq_true, hown]
                    rfl
                  · have hk : (k0 == k) = false := by
                      rw [beq_eq_false_iff_ne]
                      intro he
                      apply hnd0
                      rw [he]
                      exact List.mem_map_of_mem (fun kv => kv.1) hmem
                    have hrec := ih hndrest (by rw [hr]; exact h) k v hmem
                    rw [hr] at hrec
                    simp only [lookupField, List.find?, hk]
                    exact hrec
              | str s =>
                  rcases hr : updateFields newcfg rest with ⟨rest', re, rt⟩
                  have hstep : updateFields newcfg ((k0, .str s) :: rest) =
                      ((k0, getProp newcfg k0) :: rest', re, rt) := by
                    simp [updateFields_cons, hown, hr]
                  rw [hstep] at h ⊢
                  rcases List.mem_cons.mp hmem with heq | hmem
                  · injection heq with hk hv
                    subst hk
                    subst hv
                    simp only [lookupField, List.find?, beq_self_eq_true, hown]
                    rfl
                  · have hk : (k0 == k) = false := by
                      rw [beq_eq_false_iff_ne]
                      intro he
                      apply hnd0
                      rw [he]
                      exact List.mem_map_of_mem (fun kv => kv.1) hmem
                    have hrec := ih hndrest (by rw [hr]; exact h) k v hmem
                    rw [hr] at hrec
                    simp only [lookupField, List.find?, hk]
                    exact hrec
              | arr xs =>
                  rcases hr : updateFields newcfg rest with ⟨rest', re, rt⟩
                  have hstep : updateFields newcfg ((k0, .arr xs) :: rest) =
                      ((k0, getProp newcfg k0) :: rest', re, rt) := by
                    simp [updateFields_cons, hown, hr]
                  rw [hstep] at h ⊢
                  rcases List.mem_cons.mp hmem with heq | hmem
                  · injection heq with hk hv
                    subst hk
                    subst hv
                    simp only [lookupField, List.find?, beq_self_eq_true, hown]
                    rfl
                  · have hk : (k0 == k) = false := by
                      rw [beq_eq_false_iff_ne]
                      intro he
                      apply hnd0
                      rw [he]
                      exact List.mem_map_of_mem (fun kv => kv.1) hmem
                    have hrec := ih hndrest (by rw [hr]; exact h) k v hmem
                    rw [hr] at hrec
                    simp only [lookupField, List.find?, hk]
                    exact hrec

/-- C5: update(newTree, oldTree) merges recursively.  The merged object
keeps exactly the key list of oldTree (so keys of newTree absent from
oldTree are dropped and keys of oldTree absent from newTree survive), and
under unique keys, on a completed merge, each old field maps to: the
recursive merge of the two children when the new tree owns the key and
the old value is a plain object; the new value wholesale when the new
tree owns the key and the old value is anything else (scalar, list or
null); the old value untouched when the new tree does not own the key.
Consequently after load() merges a parsed file onto the template, the
live tree is an object with exactly the template key list. -/
theorem c5_update_merge_semantics :
    (∀ (newcfg : JValue) (kvs : List (String × JValue)),
      (updateOp newcfg (.obj kvs)).1 = .obj (updateFields newcfg kvs).1 ∧
      ((updateFields newcfg kvs).1.map (fun kv => kv.1)) = kvs.map (fun kv => kv.1) ∧
      ((kvs.map (fun kv => kv.1)).Nodup →
        (updateOp newcfg (.obj kvs)).2.2 = false →
        ∀ k v, (k, v) ∈ kvs →
          lookupField (updateFields newcfg kvs).1 k =
            some (match hasOwnE newcfg k, v with
                  | .ok true, .obj fs => (updateOp (getProp newcfg k) (.obj fs)).1
                  | .ok true, _ => getProp newcfg k
                  | _, _ => v))) ∧
    (∀ (tplkvs : List (String × JValue)) (readcfg : JValue),
      (loadOp (.obj tplkvs) (some (some readcfg))).1 =
          .obj (updateFields readcfg tplkvs).1 ∧
      ((updateFields readcfg tplkvs).1.map (fun kv => kv.1)) =
          tplkvs.map (fun kv => kv.1)) := by
  constructor
  · intro newcfg kvs
    refine ⟨updateOp_obj_val newcfg kvs, updateFields_keys newcfg kvs, ?_⟩
    intro hnd h k v hmem
    exact updateFields_lookup newcfg kvs hnd (updateOp_obj_threw newcfg kvs h) k v hmem
  · intro tplkvs readcfg
    constructor
    · rcases hu : updateOp readcfg (.obj tplkvs) with ⟨cfg, e, t⟩
      have hv := updateOp_obj_val readcfg tplkvs
      rw [hu] at hv
      simp only [loadOp, hu]
      exact hv
    · exact updateFields_keys readcfg tplkvs

theorem c5_update_merge_semantics_witness :
    lookupField (updateFields (.obj [("a", .num 5), ("zzz", .num 9)])
        [("a", .num 1), ("b", .obj [("c", .num 2)])]).1 "a" =
      some (match hasOwnE (.obj [("a", .num 5), ("zzz", .num 9)]) "a",
              (JValue.num 1) with
            | .ok true, .obj fs =>
                (updateOp (getProp (.obj [("a", .num 5), ("zzz", .num 9)]) "a")
                  (.obj fs)).1
            | .ok true, _ => getProp (.obj [("a", .num 5), ("zzz", .num 9)]) "a"
            | _, _ => JValue.num 1) :=
  ((c5_update_merge_semantics.1 (.obj [("a", .num 5), ("zzz", .num 9)])
      [("a", .num 1), ("b", .obj [("c", .num 2)])]).2.2
    (by decide)
    (by simp [updateOp, updateFields_cons, updateFields, hasOwnE, getProp])
    "a" (.num 1) (by simp))

theorem lexLeUnits_total : ∀ a b : List Nat, lexLeUnits a b = true ∨ lexLeUnits b a = true := by
  intro a
  induction a with
  | nil => intro b; left; rfl
  | cons x xs ih =>
      intro b
      cases b with
      | nil => right; rfl
      | cons y ys =>
          rcases Nat.lt_trichotomy x y with h | h | h
          · left; simp [lexLeUnits, h]
          · subst h
            rcases ih ys with h2 | h2
            · left; simp [lexLeUnits, Nat.lt_irrefl, h2]
            · right; simp [lexLeUnits, Nat.lt_irrefl, h2]
          · right; simp [lexLeUnits, h]

theorem lexLeUnits_trans : ∀ a b c : List Nat,
    lexLeUnits a b = true → lexLeUnits b c = true → lexLeUnits a c = true := by
  intro a
  induction a with
  | nil => intro b c _ _; rfl
  | cons x xs ih =>
      intro b c hab hbc
      cases b with
      | nil => simp [lexLeUnits] at hab
      | cons y ys =>
          cases c with
          | nil => simp [lexLeUnits] at hbc
          | cons z zs =>
              rcases Nat.lt_trichotomy x y with hxy | hxy | hxy
              · rcases Nat.lt_trichotomy y z with hyz | hyz | hyz
                · have hxz : x < z := Nat.lt_trans hxy hyz
                  simp [lexLeUnits, hxz]
                · subst hyz
                  simp [lexLeUnits, hxy]
                · exfalso
                  simp [lexLeUnits, Nat.lt_asymm hyz, hyz] at hbc
              · subst hxy
                have hab2 : lexLeUnits xs ys = true := by
                  simpa [lexLeUnits, Nat.lt_irrefl] using hab
                rcases Nat.lt_trichotomy x z with hxz | hxz | hxz
                · simp [lexLeUnits, hxz]
                · subst hxz
                  have hbc2 : lexLeUnits ys zs = true := by
                    simpa [lexLeUnits, Nat.lt_irrefl] using hbc
                  simp [lexLeUnits, Nat.lt_irrefl, ih ys zs hab2 hbc2]
                · exfalso
                  simp [lexLeUnits, Nat.lt_asymm hxz, hxz] at hbc
              · exfalso
                simp [lexLeUnits, Nat.lt_asymm hxy, hxy] at hab

theorem jsStrLe_total : IsTotal String jsStrLe :=
  ⟨fun a b => lexLeUnits_total (utf16Units a) (utf16Units b)⟩

theorem jsStrLe_trans : IsTrans String jsStrLe :=
  ⟨fun a b c => lexLeUnits_trans (utf16Units a) (utf16Units b) (utf16Units c)⟩

theorem sortPaths_perm (isDir : String → Bool) (l : List String) :
    (sortPaths isDir l).Perm l := by
  have h1 := List.perm_insertionSort jsStrLe (l.filter (fun p => !isDir p))
  have h2 := List.perm_insertionSort jsStrLe (l.filter (fun p => isDir p))
  have h3 : ((l.filter (fun p => !isDir p)) ++ (l.filter (fun p => isDir p))).Perm l := by
    have := List.filter_append_perm (fun p => !isDir p) l
    have hcongr : l.filter (fun p => !(!isDir p)) = l.filter (fun p => isDir p) := by
      apply List.filter_congr
      intro p _
      simp
    rw [hcongr] at this
    exact this
  exact ((h1.append h2).trans h3)

theorem sortPaths_filesFirst (isDir : String → Bool) (l : List String) :
    filesFirstSorted isDir (sortPaths isDir l) := by
  haveI := jsStrLe_total
  haveI := jsStrLe_trans
  refine ⟨List.insertionSort jsStrLe (l.filter (fun p => !isDir p)),
          List.insertionSort jsStrLe (l.filter (fun p => isDir p)),
          rfl, ?_, ?_, ?_, ?_⟩
  · intro p hp
    have hp2 := (List.perm_insertionSort jsStrLe (l.filter (fun p => !isDir p))).mem_iff.mp hp
    have := (List.mem_filter.mp hp2).2
    simp only [Bool.not_eq_eq_eq_not, Bool.not_true] at this
    exact this
  · intro p hp
    have hp2 := (List.perm_insertionSort jsStrLe (l.filter (fun p => isDir p))).mem_iff.mp hp
    exact (List.mem_filter.mp hp2).2
  · exact List.sorted_insertionSort jsStrLe _
  · exact List.sorted_insertionSort jsStrLe _

theorem sortPaths_invariant (isDir : String → Bool) (l : List String) (hnd : l.Nodup) :
    pathsInvariant isDir (sortPaths isDir l) :=
  ⟨(sortPaths_perm isDir l).symm.nodup hnd, sortPaths_filesFirst isDir l⟩

theorem dedupFirst_mem_aux : ∀ (n : Nat) (l : List String), l.length ≤ n →
    ∀ x, x ∈ dedupFirst l → x ∈ l := by
  intro n
  induction n with
  | zero =>
      intro l hl x h
      cases l with
      | nil => simp [dedupFirst] at h
      | cons p rest => simp at hl
  | succ m ih =>
      intro l hl x h
      cases l with
      | nil => simp [dedupFirst] at h
      | cons p rest =>
          rw [dedupFirst] at h
          rcases List.mem_cons.mp h with h | h
          · rw [h]; exact List.mem_cons_self _ _
          · have hlen : (rest.filter (fun q => !(q == p))).length ≤ m := by
              have hfl := List.length_filter_le (fun q => !(q == p)) rest
              simp only [List.length_cons] at hl
              omega
            exact List.mem_cons_of_mem _ (List.mem_of_mem_filter (ih _ hlen x h))

theorem dedupFirst_nodup_aux : ∀ (n : Nat) (l : List String), l.length ≤ n →
    (dedupFirst l).Nodup := by
  intro n
  induction n with
  | zero =>
      intro l hl
      cases l with
      | nil => simp [dedupFirst]
      | cons p rest => simp at hl
  | succ m ih =>
      intro l hl
      cases l with
      | nil => simp [dedupFirst]
      | cons p rest =>
          rw [dedupFirst]
          have hlen : (rest.filter (fun q => !(q == p))).length ≤ m := by
            have hfl := List.length_filter_le (fun q => !(q == p)) rest
            simp only [List.length_cons] at hl
            omega
          refine List.nodup_cons.mpr ⟨?_, ih _ hlen⟩
          intro hmem
          have hin := dedupFirst_mem_aux _ _ hlen p hmem
          have := (List.mem_filter.mp hin).2
          simp at this

theorem dedupFirst_nodup (l : List String) : (dedupFirst l).Nodup :=
  dedupFirst_nodup_aux l.length l le_rfl

theorem erase_keeps_filesFirst (isDir : String → Bool) (l : List String) (p : String)
    (h : filesFirstSorted isDir l) : filesFirstSorted isDir (l.erase p) := by
  obtain ⟨f, d, heq, hf, hd, hsf, hsd⟩ := h
  subst heq
  by_cases hp : p ∈ f
  · rw [List.erase_append_left d hp]
    refine ⟨f.erase p, d, rfl, ?_, hd, ?_, hsd⟩
    · intro q hq
      exact hf q ((f.erase_sublist p).mem hq)
    · exact List.Pairwise.sublist (f.erase_sublist p) hsf
  · rw [List.erase_append_right d hp]
    refine ⟨f, d.erase p, rfl, hf, ?_, hsf, ?_⟩
    · intro q hq
      exact hd q ((d.erase_sublist p).mem hq)
    · exact List.Pairwise.sublist (d.erase_sublist p) hsd

/-- C6: every mutation of openPaths leaves it duplicate-free and ordered
with all non-directories first and each group sorted ascending by the
default string order: a successful addPath establishes the invariant from
any duplicate-free state, addPath returns false and leaves the list alone
for a path already present, removePath preserves the invariant,
checkPaths establishes it from any state whatsoever, and the sorter
itself establishes it from any duplicate-free state. -/
theorem c6_openPaths_invariant :
    (∀ (ignoreFile isDir : String → Bool) (l : List String) (p : String),
      l.Nodup → (addPath ignoreFile isDir l p).2 = true →
        pathsInvariant isDir (addPath ignoreFile isDir l p).1) ∧
    (∀ (ignoreFile isDir : String → Bool) (l : List String) (p : String),
      p ∈ l → addPath ignoreFile isDir l p = (l, false)) ∧
    (∀ (isDir : String → Bool) (l : List String) (p : String),
      pathsInvariant isDir l → pathsInvariant isDir (removePath l p)) ∧
    (∀ (pathExists isDir : String → Bool) (l : List String),
      pathsInvariant isDir (checkPathsOpen pathExists isDir l)) ∧
    (∀ (isDir : String → Bool) (l : List String),
      l.Nodup → pathsInvariant isDir (sortPaths isDir l)) := by
  refine ⟨?_, ?_, ?_, ?_, fun isDir l h => sortPaths_invariant isDir l h⟩
  · intro ign isDir l p hnd hret
    unfold addPath at hret ⊢
    split at hret
    next hc =>
      rw [if_pos hc]
      apply sortPaths_invariant
      have hnp : p ∉ l := by
        have h2 := (Bool.and_eq_true_iff.mp hc).2
        intro hm
        have hcont : l.contains p = true := List.elem_iff.mpr hm
        rw [hcont] at h2
        exact absurd h2 (by decide)
      simp [List.nodup_append, hnd, hnp]
    next hc =>
      cases hret
  · intro ign isDir l p hp
    unfold addPath
    rw [if_neg]
    intro hcond
    have h2 := (Bool.and_eq_true_iff.mp hcond).2
    have hcont : l.contains p = true := List.elem_iff.mpr hp
    rw [hcont] at h2
    exact absurd h2 (by decide)
  · intro isDir l p hinv
    obtain ⟨hnd, hffs⟩ := hinv
    unfold removePath
    split
    next hc =>
      exact ⟨hnd.erase p, erase_keeps_filesFirst isDir l p hffs⟩
    next hc =>
      exact ⟨hnd, hffs⟩
  · intro pathExists isDir l
    exact sortPaths_invariant isDir _ (dedupFirst_nodup _)

theorem c6_openPaths_invariant_witness :
    pathsInvariant (fun p => p == "/b/dir")
      (addPath (fun _ => false) (fun p => p == "/b/dir") ["/b/dir"] "/a/file.txt").1 ∧
    addPath (fun _ => false) (fun p => p == "/b/dir") ["/b/dir"] "/b/dir" =
      (["/b/dir"], false) :=
  ⟨c6_openPaths_invariant.1 (fun _ => false) (fun p => p == "/b/dir") ["/b/dir"]
      "/a/file.txt" (by decide) (by decide),
    c6_openPaths_invariant.2.1 (fun _ => false) (fun p => p == "/b/dir") ["/b/dir"]
      "/b/dir" (by decide)⟩

theorem splitCh_parts_no_sep (sep : Char) :
    ∀ cs : List Char, ∀ part ∈ splitCh sep cs, sep ∉ part := by
  intro cs
  induction cs with
  | nil =>
      intro part hp
      simp only [splitCh, List.mem_singleton] at hp
      rw [hp]
      exact List.not_mem_nil sep
  | cons c rest ih =>
      intro part hp
      simp only [splitCh] at hp
      rcases hr : splitCh sep rest with _ | ⟨s, t⟩
      · exact absurd hr (splitCh_ne_nil sep rest)
      · rw [hr] at hp
        cases hc : (c == sep) with
        | true =>
            rw [hc] at hp
            simp only [if_true] at hp
            rcases List.mem_cons.mp hp with hp | hp
            · rw [hp]; exact List.not_mem_nil sep
            · exact ih part (by rw [hr]; exact hp)
        | false =>
            rw [hc] at hp
            simp only [Bool.false_eq_true, if_false] at hp
            rcases List.mem_cons.mp hp with hp | hp
            · rw [hp]
              intro hmem
              rcases List.mem_cons.mp hmem with hmem | hmem
              · rw [hmem] at hc
                simp at hc
              · exact ih s (by rw [hr]; exact List.mem_cons_self s t) hmem
            · exact ih part (by rw [hr]; exact List.mem_cons_of_mem s hp)

theorem splitCh_append_sep (sep : Char) :
    ∀ a b : List Char, splitCh sep (a ++ sep :: b) = splitCh sep a ++ splitCh sep b := by
  intro a b
  induction a with
  | nil =>
      simp only [List.nil_append, splitCh]
      rcases hb : splitCh sep b with _ | ⟨s, t⟩
      · exact absurd hb (splitCh_ne_nil sep b)
      · simp
  | cons c a' ih =>
      simp only [List.cons_append, splitCh]
      rcases ha : splitCh sep a' with _ | ⟨s, t⟩
      · exact absurd ha (splitCh_ne_nil sep a')
      · have ih' : splitCh sep (List.append a' (sep :: b)) =
            splitCh sep a' ++ splitCh sep b := ih
        cases hc : (c == sep) with
        | true =>
            rw [ih', ha]
            rfl
        | false =>
            rw [ih', ha]
            rfl

theorem joinCh_splitCh (sep : Char) :
    ∀ cs : List Char, joinCh sep (splitCh sep cs) = cs := by
  intro cs
  induction cs with
  | nil => rfl
  | cons c rest ih =>
      simp only [splitCh]
      rcases hr : splitCh sep rest with _ | ⟨s, t⟩
      · exact absurd hr (splitCh_ne_nil sep rest)
      · rw [hr] at ih
        cases hc : (c == sep) with
        | true =>
            have hce : c = sep := eq_of_beq hc
            simp only [if_true, joinCh]
            rw [hce, ih]
            rfl
        | false =>
            simp only [Bool.false_eq_true, if_false]
            cases t with
            | nil =>
                simp only [joinCh] at ih ⊢
                rw [ih]
            | cons u v =>
                simp only [joinCh] at ih ⊢
                rw [List.cons_append, ih]

theorem splitCh_joinCh (sep : Char) :
    ∀ l : List (List Char), (∀ part ∈ l, sep ∉ part) → l ≠ [] →
      splitCh sep (joinCh sep l) = l := by
  intro l
  induction l with
  | nil => intro _ h; exact absurd rfl h
  | cons s rest ih =>
      intro hparts _
      cases rest with
      | nil =>
          simp only [joinCh]
          exact splitCh_no_sep sep s (hparts s (List.mem_cons_self s []))
      | cons u v =>
          have hs : sep ∉ s := hparts s (List.mem_cons_self s (u :: v))
          have hrest : ∀ part ∈ u :: v, sep ∉ part :=
            fun part hp => hparts part (List.mem_cons_of_mem s hp)
          have hj : joinCh sep (s :: u :: v) = s ++ sep :: joinCh sep (u :: v) := rfl
          rw [hj, splitCh_append_sep, splitCh_no_sep sep s hs, ih hrest (by simp)]
          rfl

theorem augmentLoop_shape :
    ∀ (xs : List (List Char)) (n : List (List Char)),
      ∃ extra, augmentLoop n xs = n ++ extra ∧ ∀ e ∈ extra, e ∈ xs := by
  intro xs
  induction xs with
  | nil => intro n; exact ⟨[], by simp [augmentLoop]⟩
  | cons x rest ih =>
      intro n
      simp only [augmentLoop]
      cases hcond : (!n.contains x && !n.contains (slashToggle x)) with
      | true =>
          rw [if_pos rfl]
          obtain ⟨extra, hex, hsub⟩ := ih (n ++ [x])
          refine ⟨x :: extra, ?_, ?_⟩
          · rw [hex, List.append_assoc]
            rfl
          · intro e he
            rcases List.mem_cons.mp he with he | he
            · rw [he]; exact List.mem_cons_self x rest
            · exact List.mem_cons_of_mem x (hsub e he)
      | false =>
          rw [if_neg Bool.false_ne_true]
          obtain ⟨extra, hex, hsub⟩ := ih n
          exact ⟨extra, hex, fun e he => List.mem_cons_of_mem x (hsub e he)⟩

theorem augmentLoop_covers :
    ∀ (xs : List (List Char)) (n : List (List Char)), ∀ x ∈ xs,
      x ∈ augmentLoop n xs ∨ slashToggle x ∈ augmentLoop n xs := by
  intro xs
  induction xs with
  | nil => intro n x hx; cases hx
  | cons x0 rest ih =>
      intro n x hx
      simp only [augmentLoop]
      rcases List.mem_cons.mp hx with heq | hmem
      · subst heq
        cases hcond : (!n.contains x && !n.contains (slashToggle x)) with
        | true =>
            rw [if_pos rfl]
            left
            obtain ⟨extra, hex, _⟩ := augmentLoop_shape rest (n ++ [x])
            rw [hex]
            exact List.mem_append_left extra (List.mem_append_right n (List.mem_singleton.mpr rfl))
        | false =>
            rw [if_neg Bool.false_ne_true]
            obtain ⟨extra, hex, _⟩ := augmentLoop_shape rest n
            rw [hex]
            have hor : x ∈ n ∨ slashToggle x ∈ n := by
              cases hc1 : n.contains x with
              | true => exact Or.inl (List.elem_iff.mp hc1)
              | false =>
                  cases hc2 : n.contains (slashToggle x) with
                  | true => exact Or.inr (List.elem_iff.mp hc2)
                  | false =>
                      exfalso
                      rw [hc1, hc2] at hcond
                      simp at hcond
            rcases hor with hor | hor
            · exact Or.inl (List.mem_append_left extra hor)
            · exact Or.inr (List.mem_append_left extra hor)
      · cases hcond : (!n.contains x0 && !n.contains (slashToggle x0)) with
        | true =>
            rw [if_pos rfl]
            exact ih (n ++ [x0]) x hmem
        | false =>
            rw [if_neg Bool.false_ne_true]
            exact ih n x hmem

theorem augmentLoop_noop :
    ∀ (xs : List (List Char)) (n : List (List Char)),
      (∀ x ∈ xs, x ∈ n ∨ slashToggle x ∈ n) → augmentLoop n xs = n := by
  intro xs
  induction xs with
  | nil => intro n _; rfl
  | cons x0 rest ih =>
      intro n hcov
      have hc : (!n.contains x0 && !n.contains (slashToggle x0)) = false := by
        rcases hcov x0 (List.mem_cons_self x0 rest) with h | h
        · have hc1 : n.contains x0 = true := List.elem_iff.mpr h
          rw [hc1]
          simp
        · have hc2 : n.contains (slashToggle x0) = true := List.elem_iff.mpr h
          rw [hc2]
          simp
      simp only [augmentLoop]
      rw [if_neg (by rw [hc]; simp)]
      exact ih n (fun x hx => hcov x (List.mem_cons_of_mem x0 hx))

theorem leadsWith_self_append : ∀ (n t : List Char), leadsWith (n ++ t) n = true := by
  intro n
  induction n with
  | nil => intro t; cases t <;> rfl
  | cons c cs ih => intro t; simp [leadsWith, ih]

theorem containsSeq_mid : ∀ (pre n post : List Char),
    containsSeq n (pre ++ n ++ post) = true := by
  intro pre
  induction pre with
  | nil =>
      intro n post
      cases n with
      | nil => cases post <;> rfl
      | cons c cs =>
          simp only [List.nil_append, containsSeq]
          have h2 : leadsWith (c :: List.append cs post) (c :: cs) = true :=
            leadsWith_self_append (c :: cs) post
          rw [h2]
          simp
  | cons p ps ih =>
      intro n post
      simp only [List.cons_append, containsSeq]
      have h2 : containsSeq n (List.append (List.append ps n) post) = true := ih n post
      rw [h2]
      simp

theorem leadsWith_append_right : ∀ (n s t : List Char),
    leadsWith s n = true → leadsWith (s ++ t) n = true := by
  intro n
  induction n with
  | nil =>
      intro s t _
      cases s with
      | nil => cases t <;> rfl
      | cons x xs => rfl
  | cons c cs ih =>
      intro s t h
      cases s with
      | nil => cases h
      | cons x xs =>
          simp only [leadsWith, Bool.and_eq_true] at h
          simp only [List.cons_append, leadsWith, Bool.and_eq_true]
          exact ⟨h.1, ih xs t h.2⟩

theorem containsSeq_append_right : ∀ (n s t : List Char),
    containsSeq n s = true → containsSeq n (s ++ t) = true := by
  intro n s
  induction s with
  | nil =>
      intro t h
      simp only [containsSeq] at h
      have : n = [] := List.isEmpty_iff.mp h
      rw [this, List.nil_append]
      cases t with
      | nil => rfl
      | cons c cs =>
          simp [containsSeq, leadsWith]
  | cons c cs ih =>
      intro t h
      simp only [containsSeq, Bool.or_eq_true] at h
      simp only [List.cons_append, containsSeq, Bool.or_eq_true]
      rcases h with h | h
      · exact Or.inl (leadsWith_append_right n (c :: cs) t h)
      · exact Or.inr (ih t h)

theorem appendDir_noop (delim : Char) (d s : List Char)
    (h : d.length = 0 ∨ containsSeq d s = true) :
    appendDirIfMissing delim d s = s := by
  unfold appendDirIfMissing
  rcases h with h | h
  · rw [if_neg (by omega)]
  · by_cases hl : d.length > 0
    · rw [if_pos hl, if_pos h]
    · rw [if_neg hl]

theorem appendDir_contains_self (delim : Char) (d s : List Char) (hl : 0 < d.length) :
    containsSeq d (appendDirIfMissing delim d s) = true := by
  unfold appendDirIfMissing
  rw [if_pos hl]
  by_cases hc : containsSeq d s = true
  · rw [if_pos hc]
    exact hc
  · rw [if_neg hc]
    have hshape : s ++ delim :: d = (s ++ [delim]) ++ d ++ [] := by simp
    rw [hshape]
    exact containsSeq_mid (s ++ [delim]) d []

theorem appendDir_contains_mono (delim : Char) (d d2 s : List Char)
    (h : containsSeq d s = true) :
    containsSeq d (appendDirIfMissing delim d2 s) = true := by
  unfold appendDirIfMissing
  by_cases hl : d2.length > 0
  · rw [if_pos hl]
    by_cases hc : containsSeq d2 s = true
    · rw [if_pos hc]
      exact h
    · rw [if_neg hc]
      exact containsSeq_append_right d s (delim :: d2) h
  · rw [if_neg hl]
    exact h

/-- C9: running the search-path augmentation of checkSystem twice in
succession yields the same search-path string as running it once,
provided the platform delimiter occurs in none of the configured
additional directories (they are directory names): no additional
directory (in either slash form) and no configured binary directory is
appended a second time. -/
theorem c9_checkSystemPath_idempotent (delim : Char) (additional : List (List Char))
    (xdir pdir path : List Char) (hfree : ∀ x ∈ additional, delim ∉ x) :
    checkSystemPath delim additional xdir pdir
        (checkSystemPath delim additional xdir pdir path) =
      checkSystemPath delim additional xdir pdir path := by
  have hcx : xdir.length = 0 ∨
      containsSeq xdir (checkSystemPath delim additional xdir pdir path) = true := by
    rcases Nat.eq_zero_or_pos xdir.length with h | h
    · exact Or.inl h
    · exact Or.inr (appendDir_contains_mono delim xdir pdir _
        (appendDir_contains_self delim xdir _ h))
  have hcp : pdir.length = 0 ∨
      containsSeq pdir (checkSystemPath delim additional xdir pdir path) = true := by
    rcases Nat.eq_zero_or_pos pdir.length with h | h
    · exact Or.inl h
    · exact Or.inr (appendDir_contains_self delim pdir _ h)
  have hstepI : augmentAdditional delim additional
      (checkSystemPath delim additional xdir pdir path) =
      checkSystemPath delim additional xdir pdir path := by
    by_cases hadd : additional = []
    · subst hadd
      simp [augmentAdditional]
    · have hnemp : additional.isEmpty = false := by
        cases additional with
        | nil => exact absurd rfl hadd
        | cons a as => rfl
      have hA2 : augmentAdditional delim additional path =
          joinCh delim (augmentLoop (splitCh delim path) additional) := by
        unfold augmentAdditional
        rw [if_neg (by rw [hnemp]; simp)]
      have hpartsL1 : ∀ part ∈ augmentLoop (splitCh delim path) additional,
          delim ∉ part := by
        obtain ⟨extra, hex, hsub⟩ := augmentLoop_shape additional (splitCh delim path)
        rw [hex]
        intro part hp
        rcases List.mem_append.mp hp with hp | hp
        · exact splitCh_parts_no_sep delim path part hp
        · exact hfree part (hsub part hp)
      have hL1ne : augmentLoop (splitCh delim path) additional ≠ [] := by
        obtain ⟨extra, hex, _⟩ := augmentLoop_shape additional (splitCh delim path)
        rw [hex]
        intro hcon
        exact splitCh_ne_nil delim path (List.append_eq_nil.mp hcon).1
      have hsplitA : splitCh delim (augmentAdditional delim additional path) =
          augmentLoop (splitCh delim path) additional := by
        rw [hA2]
        exact splitCh_joinCh delim _ hpartsL1 hL1ne
      have stage : ∀ (d s : List Char) (junk0 : List (List Char)),
          splitCh delim s = augmentLoop (splitCh delim path) additional ++ junk0 →
          ∃ junk, splitCh delim (appendDirIfMissing delim d s) =
            augmentLoop (splitCh delim path) additional ++ junk := by
        intro d s junk0 hs
        unfold appendDirIfMissing
        by_cases hl : d.length > 0
        · rw [if_pos hl]
          by_cases hc : containsSeq d s = true
          · rw [if_pos hc]
            exact ⟨junk0, hs⟩
          · rw [if_neg hc]
            exact ⟨junk0 ++ splitCh delim d,
              by rw [splitCh_append_sep, hs, List.append_assoc]⟩
        · rw [if_neg hl]
          exact ⟨junk0, hs⟩
      obtain ⟨j1, hj1⟩ := stage xdir (augmentAdditional delim additional path) []
        (by rw [hsplitA, List.append_nil])
      obtain ⟨j2, hj2⟩ := stage pdir
        (appendDirIfMissing delim xdir (augmentAdditional delim additional path)) j1 hj1
      have hnoop : augmentLoop
          (splitCh delim (checkSystemPath delim additional xdir pdir path)) additional =
          splitCh delim (checkSystemPath delim additional xdir pdir path) := by
        apply augmentLoop_noop
        intro x hx
        rcases augmentLoop_covers additional (splitCh delim path) x hx with h | h
        · left
          show x ∈ splitCh delim (appendDirIfMissing delim pdir
            (appendDirIfMissing delim xdir (augmentAdditional delim additional path)))
          rw [hj2]
          exact List.mem_append_left j2 h
        · right
          show slashToggle x ∈ splitCh delim (appendDirIfMissing delim pdir
            (appendDirIfMissing delim xdir (augmentAdditional delim additional path)))
          rw [hj2]
          exact List.mem_append_left j2 h
      unfold augmentAdditional
      rw [if_neg (by rw [hnemp]; simp), hnoop, joinCh_splitCh]
  show appendDirIfMissing delim pdir (appendDirIfMissing delim xdir
    (augmentAdditional delim additional
      (checkSystemPath delim additional xdir pdir path))) =
    checkSystemPath delim additional xdir pdir path
  rw [hstepI, appendDir_noop delim xdir _ hcx, appendDir_noop delim pdir _ hcp]

theorem c9_checkSystemPath_idempotent_witness :
    checkSystemPath ':' [['/', 'a']] ['/', 'b'] []
        (checkSystemPath ':' [['/', 'a']] ['/', 'b'] [] ['/', 'c']) =
      checkSystemPath ':' [['/', 'a']] ['/', 'b'] [] ['/', 'c'] :=
  c9_checkSystemPath_idempotent ':' [['/', 'a']] ['/', 'b'] [] ['/', 'c'] (by decide)

theorem setWalk_emits (rules : Rules) (option : String) (value : JValue) :
    ∀ (args : List String) (cfg : JValue) (prop : String),
      ((setWalk rules option value cfg args prop).2.2 = .ok true →
        (setWalk rules option value cfg args prop).2.1 = 1) ∧
      ((setWalk rules option value cfg args prop).2.2 ≠ .ok true →
        (setWalk rules option value cfg args prop).2.1 = 0) := by
  intro args
  induction args with
  | nil =>
      intro cfg prop
      cases hown : hasOwnE cfg prop with
      | error e => simp [setWalk, hown]
      | ok b =>
          cases b with
          | false => simp [setWalk, hown]
          | true =>
              cases hval : validateKey rules option value with
              | false => simp [setWalk, hown, hval]
              | true =>
                  cases hass : assignProp cfg prop value with
                  | error e => simp [setWalk, hown, hval, hass]
                  | ok cfg2 => simp [setWalk, hown, hval, hass]
  | cons arg rest ih =>
      intro cfg prop
      cases hown : hasOwnE cfg arg with
      | error e => simp [setWalk, hown]
      | ok b =>
          cases b with
          | false => simp [setWalk, hown]
          | true =>
              simp only [setWalk, hown]
              cases hass : assignProp cfg arg
                  (setWalk rules option value (getProp cfg arg) rest prop).1 with
              | error e => simpa using ih (getProp cfg arg) prop
              | ok cfg2 => simpa using ih (getProp cfg arg) prop

/-- C10: addPath, removePath and checkPaths contain no emit call, so they
produce zero update notifications even when they mutate the open-paths or
selected-dictionaries lists; among the mutators, set emits exactly one
notification when it returns true and none when it returns false or
throws, and a completed update always emits at least one. -/
theorem c10_emit_discipline :
    (∀ (ignoreFile isDir : String → Bool) (openPaths : List String) (p : String),
      (addPathM ignoreFile isDir openPaths p).2 = 0) ∧
    (∀ (openPaths : List String) (p : String), (removePathM openPaths p).2 = 0) ∧
    (∀ (pathExists isDir isDictAvailable : String → Bool)
        (openPaths selectedDicts : List String),
      (checkPathsM pathExists isDir isDictAvailable openPaths selectedDicts).2 = 0) ∧
    (∀ (rules : Rules) (config : JValue) (option : String) (value : JValue),
      ((setOpt rules config option value).ret = .ok true →
        (setOpt rules config option value).emits = 1) ∧
      ((setOpt rules config option value).ret ≠ .ok true →
        (setOpt rules config option value).emits = 0)) ∧
    (∀ (newcfg oldcfg : JValue), (updateOp newcfg oldcfg).2.2 = false →
      1 ≤ (updateOp newcfg oldcfg).2.1) := by
  refine ⟨fun _ _ _ _ => rfl, fun _ _ => rfl, fun _ _ _ _ _ => rfl, ?_, updateOp_emits_pos⟩
  intro rules config option value
  cases hown : hasOwnE config option with
  | error e => simp [setOpt, hown]
  | ok ownTop =>
      simp only [setOpt, hown]
      by_cases hcond : (ownTop && validateKey rules option value) = true
      · rw [if_pos hcond]
        cases hass : assignProp config option value with
        | error e => simp
        | ok cfg2 => simp
      · rw [if_neg hcond]
        by_cases hdot : dotAfterStart option = true
        · rw [if_pos hdot]
          simpa using setWalk_emits rules option value
            ((jsSplit '.' option).dropLast) config ((jsSplit '.' option).getLastD "")
        · rw [if_neg hdot]
          simp

theorem c10_emit_discipline_witness :
    (addPathM (fun _ => false) (fun _ => false) [] "p").2 = 0 ∧
    (removePathM [] "p").2 = 0 ∧
    (checkPathsM (fun _ => true) (fun _ => false) (fun _ => true) [] []).2 = 0 ∧
    (setOpt [] (JValue.obj [("x", JValue.null)]) "x" (JValue.num 1)).emits = 1 ∧
    (setOpt [] (JValue.obj []) "x" (JValue.num 1)).emits = 0 ∧
    1 ≤ (updateOp (JValue.obj []) (JValue.obj [])).2.1 :=
  ⟨c10_emit_discipline.1 (fun _ => false) (fun _ => false) [] "p",
   c10_emit_discipline.2.1 [] "p",
   c10_emit_discipline.2.2.1 (fun _ => true) (fun _ => false) (fun _ => true) [] [],
   (c10_emit_discipline.2.2.2.1 [] (JValue.obj [("x", JValue.null)]) "x" (JValue.num 1)).1 rfl,
   (c10_emit_discipline.2.2.2.1 [] (JValue.obj []) "x" (JValue.num 1)).2
     (by simp [setOpt, hasOwnE, dotAfterStart]),
   c10_emit_discipline.2.2.2.2 (JValue.obj []) (JValue.obj [])
     (by simp [updateOp, updateFields])⟩

theorem optionTraverse_congr {α β : Type} (f g : α → Option β) :
    ∀ xs : List α, (∀ x ∈ xs, f x = g x) → optionTraverse f xs = optionTraverse g xs := by
  intro xs
  induction xs with
  | nil => intro _; rfl
  | cons x rest ih =>
      intro hfg
      simp only [optionTraverse]
      rw [hfg x (List.mem_cons_self x rest), ih (fun y hy => hfg y (List.mem_cons_of_mem x hy))]

theorem optionTraverse_mono {α β : Type} (f g : α → Option β)
    (hfg : ∀ x y, f x = some y → g x = some y) :
    ∀ (xs : List α) (ys : List β),optionTraverse f xs = some ys → optionTraverse g xs = some ys := by
  intro xs
  induction xs with
  | nil => intro ys h; exact h
  | cons x rest ih =>
      intro ys h
      simp only [optionTraverse] at h ⊢
      cases hfx : f x with
      | none => rw [hfx] at h; simp at h
      | some y =>
          cases hrest : optionTraverse f rest with
          | none => rw [hfx, hrest] at h; simp at h
          | some ys0 =>
              rw [hfx, hrest] at h
              simp only [] at h
              rw [hfg x y hfx, ih ys0 hrest]
              simpa using h

theorem findNode_mem (h : Heap) (a : Nat) (nd : HNode) (hf : findNode h a = some nd) :
    ∃ e, e ∈ h.nodes ∧ e.1 = a ∧ e.2 = nd := by
  unfold findNode at hf
  cases hfind : h.nodes.find? (fun e => e.1 == a) with
  | none => rw [hfind] at hf; cases hf
  | some e =>
      rw [hfind] at hf
      refine ⟨e, List.mem_of_find?_eq_some hfind, ?_, ?_⟩
      · have hp : (e.1 == a) = true := List.find?_some (p := fun x : Nat × HNode => x.1 == a) hfind
        exact eq_of_beq hp
      · exact Option.some.inj hf

theorem findNode_append_some (ns tail : List (Nat × HNode)) (m m2 : Nat) (a : Nat) (nd : HNode)
    (hf : findNode ⟨ns, m⟩ a = some nd) : findNode ⟨ns ++ tail, m2⟩ a = some nd := by
  unfold findNode at hf ⊢
  cases hfind : ns.find? (fun e => e.1 == a) with
  | none => rw [hfind] at hf; cases hf
  | some e =>
      rw [hfind] at hf
      simp only [List.find?_append, hfind]
      simpa using hf

theorem findNode_append_fresh (tail : List (Nat × HNode)) (m : Nat) (a : Nat) (nd : HNode) :
    ∀ ns : List (Nat × HNode), (∀ e ∈ ns, e.1 < a) →
      findNode ⟨ns ++ (a, nd) :: tail, m⟩ a = some nd := by
  intro ns
  induction ns with
  | nil =>
      intro _
      unfold findNode
      rw [List.nil_append, List.find?_cons_of_pos _ (by simp)]
      rfl
  | cons e rest ih =>
      intro hlt
      unfold findNode
      rw [List.cons_append, List.find?_cons_of_neg _ (by
        have := hlt e (List.mem_cons_self e rest)
        simp
        omega)]
      exact ih (fun x hx => hlt x (List.mem_cons_of_mem e hx))

theorem replaceNode_findNode_ne (h : Heap) (a : Nat) (nd : HNode) (b : Nat) (hne : b ≠ a) :
    findNode (replaceNode h a nd) b = findNode h b := by
  unfold replaceNode findNode
  simp only []
  induction h.nodes with
  | nil => rfl
  | cons e rest ih =>
      simp only [List.map_cons]
      by_cases hpe : (e.1 == b) = true
      · have heb : e.1 = b := eq_of_beq hpe
        by_cases hea : (e.1 == a) = true
        · have hba : b = a := by rw [← heb]; exact eq_of_beq hea
          exact absurd hba hne
        · rw [if_neg hea, List.find?_cons_of_pos (p := fun x : Nat × HNode => x.1 == b) _ hpe,
            List.find?_cons_of_pos (p := fun x : Nat × HNode => x.1 == b) _ hpe]
      · have hfst : (if e.1 == a then (e.1, nd) else e).1 = e.1 := by
          by_cases hea : (e.1 == a) = true
          · rw [if_pos hea]
          · rw [if_neg hea]
        rw [List.find?_cons_of_neg (p := fun x : Nat × HNode => x.1 == b) _ (by simp only [hfst]; exact hpe),
          List.find?_cons_of_neg (p := fun x : Nat × HNode => x.1 == b) _ hpe]
        exact ih

theorem readVal_mono (h : Heap) :
    ∀ fuel fuel2 : Nat, fuel ≤ fuel2 → ∀ (v : HVal) (j : JValue),
      readVal h fuel v = some j → readVal h fuel2 v = some j := by
  intro fuel
  induction fuel with
  | zero => intro fuel2 _ v j hr; simp [readVal] at hr
  | succ fuel ih =>
      intro fuel2 hle v j hr
      obtain ⟨f2, rfl⟩ : ∃ f2, fuel2 = f2 + 1 := ⟨fuel2 - 1, by omega⟩
      have hle2 : fuel ≤ f2 := by omega
      cases v with
      | null => exact hr
      | bool b => exact hr
      | num n => exact hr
      | str s => exact hr
      | ref a =>
          simp only [readVal, readValStep] at hr ⊢
          cases hfn : findNode h a with
          | none => simp [hfn] at hr
          | some nd =>
              rw [hfn] at hr
              cases nd with
              | obj kvs =>
                  simp only [] at hr
                  try simp only []
                  obtain ⟨l, hl, rfl⟩ := Option.map_eq_some'.mp hr
                  have hmono : ∀ (kv : String × HVal) (y : String × JValue),
                      (readVal h fuel kv.2).map (fun jj => (kv.1, jj)) = some y →
                      (readVal h f2 kv.2).map (fun jj => (kv.1, jj)) = some y := by
                    intro kv y hy
                    obtain ⟨jj, hjj, hfy⟩ := Option.map_eq_some'.mp hy
                    rw [ih f2 hle2 kv.2 jj hjj]
                    simpa using hfy
                  rw [optionTraverse_mono _ _ hmono kvs l hl]
                  rfl
              | arr xs =>
                  simp only [] at hr
                  try simp only []
                  obtain ⟨l, hl, rfl⟩ := Option.map_eq_some'.mp hr
                  rw [optionTraverse_mono _ _ (fun x y hy => ih f2 hle2 x y hy) xs l hl]
                  rfl

theorem readVal_frame (h h2 : Heap) (hwf : heapWF h)
    (hag : ∀ b, findNode h b ≠ none → findNode h2 b = findNode h b) :
    ∀ (fuel : Nat) (v : HVal), (∀ a, v = .ref a → findNode h a ≠ none) →
      readVal h2 fuel v = readVal h fuel v := by
  intro fuel
  induction fuel with
  | zero => intro v _; rfl
  | succ fuel ih =>
      intro v hv
      cases v with
      | null => rfl
      | bool b => rfl
      | num n => rfl
      | str s => rfl
      | ref a =>
          have hfa : findNode h a ≠ none := hv a rfl
          simp only [readVal, readValStep]
          rw [hag a hfa]
          cases hfn : findNode h a with
          | none => rfl
          | some nd =>
              obtain ⟨e, hemem, he1, he2⟩ := findNode_mem h a nd hfn
              have hrefs : ∀ b ∈ nodeRefs nd, findNode h b ≠ none := by
                intro b hb
                exact ((hwf.2 e hemem).2 b (by rw [he2]; exact hb)).2
              cases nd with
              | obj kvs =>
                  try simp only []
                  have hcongr : ∀ kv ∈ kvs,
                      (fun kv : String × HVal =>
                        (readVal h2 fuel kv.2).map (fun j => (kv.1, j))) kv =
                      (fun kv : String × HVal =>
                        (readVal h fuel kv.2).map (fun j => (kv.1, j))) kv := by
                    intro kv hkv
                    simp only []
                    rw [ih kv.2 (by
                      intro b hb
                      apply hrefs
                      simp only [nodeRefs, nodeVals, List.mem_filterMap, List.mem_map]
                      exact ⟨kv.2, ⟨kv, hkv, rfl⟩, by rw [hb]⟩)]
                  rw [optionTraverse_congr
                    (fun kv : String × HVal => (readVal h2 fuel kv.2).map (fun j => (kv.1, j)))
                    (fun kv : String × HVal => (readVal h fuel kv.2).map (fun j => (kv.1, j)))
                    kvs hcongr]
              | arr xs =>
                  try simp only []
                  have hcongr : ∀ x ∈ xs, readVal h2 fuel x = readVal h fuel x := by
                    intro x hx
                    refine ih x ?_
                    intro b hb
                    apply hrefs
                    simp only [nodeRefs, nodeVals, List.mem_filterMap]
                    exact ⟨x, hx, by rw [hb]⟩
                  rw [optionTraverse_congr _ _ xs hcongr]

theorem hasOwnH_frame (h h2 : Heap)
    (hag : ∀ b, findNode h b ≠ none → findNode h2 b = findNode h b)
    (v : HVal) (hv : ∀ a, v = .ref a → findNode h a ≠ none) (k : String) :
    hasOwnH h2 v k = hasOwnH h v k := by
  cases v with
  | ref a =>
      simp only [hasOwnH]
      rw [hag a (hv a rfl)]
  | null => rfl
  | bool b => rfl
  | num n => rfl
  | str s => rfl

theorem getPropH_frame (h h2 : Heap)
    (hag : ∀ b, findNode h b ≠ none → findNode h2 b = findNode h b)
    (v : HVal) (hv : ∀ a, v = .ref a → findNode h a ≠ none) (k : String) :
    getPropH h2 v k = getPropH h v k := by
  cases v with
  | ref a =>
      simp only [getPropH]
      rw [hag a (hv a rfl)]
  | null => rfl
  | bool b => rfl
  | num n => rfl
  | str s => rfl

theorem getPropH_wf (h : Heap) (hwf : heapWF h) (v : HVal) (hv : valWF h v) (k : String) :
    valWF h (getPropH h v k) := by
  cases v with
  | ref a =>
      obtain ⟨hlt, hne⟩ := hv
      cases hfn : findNode h a with
      | none => exact absurd hfn hne
      | some nd =>
          obtain ⟨e, hemem, he1, he2⟩ := findNode_mem h a nd hfn
          have hrefs : ∀ b ∈ nodeRefs nd, b < h.next ∧ findNode h b ≠ none := by
            intro b hb
            have h3 := (hwf.2 e hemem).2 b (by rw [he2]; exact hb)
            have hba : b < a := by rw [← he1]; exact h3.1
            exact ⟨lt_trans hba hlt, h3.2⟩
          cases nd with
          | obj kvs =>
              simp only [getPropH, hfn]
              cases hfind : kvs.find? (fun kv => kv.1 == k) with
              | none => trivial
              | some kv =>
                  cases hkv2 : kv.2 with
                  | ref b =>
                      have hbmem : b ∈ nodeRefs (HNode.obj kvs) := by
                        simp only [nodeRefs, nodeVals, List.mem_filterMap, List.mem_map]
                        exact ⟨kv.2, ⟨kv, List.mem_of_find?_eq_some hfind, rfl⟩, by rw [hkv2]⟩
                      show valWF h kv.2
                      rw [hkv2]
                      exact hrefs b hbmem
                  | null => show valWF h kv.2; rw [hkv2]; trivial
                  | bool bb => show valWF h kv.2; rw [hkv2]; trivial
                  | num nn => show valWF h kv.2; rw [hkv2]; trivial
                  | str ss => show valWF h kv.2; rw [hkv2]; trivial
          | arr xs =>
              simp only [getPropH, hfn]
              by_cases hk : (k == "length") = true
              · rw [if_pos hk]; trivial
              · rw [if_neg hk]
                cases hget : xs.get? (indexVal k) with
                | none => trivial
                | some x =>
                    show valWF h x
                    cases hx : x with
                    | ref b =>
                        have hbmem : b ∈ nodeRefs (HNode.arr xs) := by
                          simp only [nodeRefs, nodeVals, List.mem_filterMap]
                          exact ⟨x, List.get?_mem hget, by rw [hx]⟩
                        exact hrefs b hbmem
                    | null => trivial
                    | bool bb => trivial
                    | num nn => trivial
                    | str ss => trivial
  | str s =>
      simp only [getPropH]
      by_cases hk : (k == "length") = true
      · rw [if_pos hk]; trivial
      · rw [if_neg hk]
        cases hget : s.toList.get? (indexVal k) with
        | none => trivial
        | some c => trivial
  | null => trivial
  | bool b => trivial
  | num n => trivial

theorem getWalkH_frame (h h2 : Heap) (hwf : heapWF h)
    (hag : ∀ b, findNode h b ≠ none → findNode h2 b = findNode h b) :
    ∀ (args : List String) (v : HVal), valWF h v →
      getWalkH h2 v args = getWalkH h v args := by
  intro args
  induction args with
  | nil => intro v _; rfl
  | cons arg rest ih =>
      intro v hv
      have hvl : ∀ a, v = .ref a → findNode h a ≠ none := by
        intro a ha
        rw [ha] at hv
        exact hv.2
      simp only [getWalkH]
      rw [hasOwnH_frame h h2 hag v hvl arg]
      cases hown : hasOwnH h v arg with
      | error e => rfl
      | ok b =>
          cases b with
          | true =>
              try simp only []
              rw [getPropH_frame h h2 hag v hvl arg]
              exact ih (getPropH h v arg) (getPropH_wf h hwf v hv arg)
          | false => rfl

theorem getWalkH_wf (h : Heap) (hwf : heapWF h) :
    ∀ (args : List String) (v : HVal), valWF h v →
      ∀ r, getWalkH h v args = .ok r → valWF h r := by
  intro args
  induction args with
  | nil =>
      intro v hv r hr
      exact Except.ok.inj hr ▸ hv
  | cons arg rest ih =>
      intro v hv r hr
      simp only [getWalkH] at hr
      cases hown : hasOwnH h v arg with
      | error e =>
          try rw [hown] at hr
          simp at hr
      | ok b =>
          cases b with
          | true =>
              try rw [hown] at hr
              simp only [] at hr
              exact ih (getPropH h v arg) (getPropH_wf h hwf v hv arg) r hr
          | false =>
              try rw [hown] at hr
              simp only [] at hr
              rw [← Except.ok.inj hr]
              trivial

theorem hGet_frame (h h2 : Heap) (hwf : heapWF h)
    (hag : ∀ b, findNode h b ≠ none → findNode h2 b = findNode h b)
    (config : HVal) (hc : valWF h config) (attr : Option String) :
    hGet h2 config attr = hGet h config attr := by
  cases attr with
  | none => rfl
  | some a =>
      simp only [hGet]
      by_cases he : (a == "") = true
      · rw [if_pos he, if_pos he]
      · rw [if_neg he, if_neg he]
        by_cases hd : dotAfterStart a = true
        · rw [if_pos hd, if_pos hd]
          exact getWalkH_frame h h2 hwf hag _ config hc
        · rw [if_neg hd, if_neg hd]
          have hvl : ∀ a0, config = .ref a0 → findNode h a0 ≠ none := by
            intro a0 ha0
            rw [ha0] at hc
            exact hc.2
          rw [hasOwnH_frame h h2 hag config hvl a]
          cases hown : hasOwnH h config a with
          | error e => rfl
          | ok b =>
              cases b with
              | true =>
                  try simp only []
                  rw [getPropH_frame h h2 hag config hvl a]
              | false => rfl

theorem hGet_wf (h : Heap) (hwf : heapWF h) (config : HVal) (hc : valWF h config)
    (attr : Option String) : ∀ r, hGet h config attr = .ok r → valWF h r := by
  intro r hr
  cases attr with
  | none => exact Except.ok.inj hr ▸ hc
  | some a =>
      simp only [hGet] at hr
      by_cases he : (a == "") = true
      · rw [if_pos he] at hr
        exact Except.ok.inj hr ▸ hc
      · rw [if_neg he] at hr
        by_cases hd : dotAfterStart a = true
        · rw [if_pos hd] at hr
          exact getWalkH_wf h hwf _ config hc r hr
        · rw [if_neg hd] at hr
          cases hown : hasOwnH h config a with
          | error e =>
              try rw [hown] at hr
              simp at hr
          | ok b =>
              cases b with
              | true =>
                  try rw [hown] at hr
                  simp only [] at hr
                  exact Except.ok.inj hr ▸ getPropH_wf h hwf config hc a
              | false =>
                  try rw [hown] at hr
                  simp only [] at hr
                  rw [← Except.ok.inj hr]
                  trivial

theorem jval_sizeOf_pos (j : JValue) : 0 < sizeOf j := by
  cases j <;> simp_arith

theorem fields_sizeOf_pos (kvs : List (String × JValue)) : 0 < sizeOf kvs := by
  cases kvs <;> simp_arith

theorem elems_sizeOf_pos (xs : List JValue) : 0 < sizeOf xs := by
  cases xs <;> simp_arith

theorem alloc_spec : ∀ n : Nat,
    (∀ j : JValue, sizeOf j ≤ n → ∀ h : Heap, (∀ e ∈ h.nodes, e.1 < h.next) →
      (∃ L, (allocVal h j).2.nodes = h.nodes ++ L ∧
        ∀ e ∈ L, h.next ≤ e.1 ∧ ∀ b ∈ nodeRefs e.2, h.next ≤ b) ∧
      h.next ≤ (allocVal h j).2.next ∧
      (∀ e ∈ (allocVal h j).2.nodes, e.1 < (allocVal h j).2.next) ∧
      (∀ a, (allocVal h j).1 = .ref a → h.next ≤ a) ∧
      (∀ (tail : List (Nat × HNode)) (m : Nat),
        readVal ⟨(allocVal h j).2.nodes ++ tail, m⟩ (sizeOf j) (allocVal h j).1 = some j)) ∧
    (∀ kvs : List (String × JValue), sizeOf kvs ≤ n → ∀ h : Heap,
        (∀ e ∈ h.nodes, e.1 < h.next) →
      (∃ L, (allocFields h kvs).2.nodes = h.nodes ++ L ∧
        ∀ e ∈ L, h.next ≤ e.1 ∧ ∀ b ∈ nodeRefs e.2, h.next ≤ b) ∧
      h.next ≤ (allocFields h kvs).2.next ∧
      (∀ e ∈ (allocFields h kvs).2.nodes, e.1 < (allocFields h kvs).2.next) ∧
      (∀ kv ∈ (allocFields h kvs).1, ∀ b, kv.2 = .ref b → h.next ≤ b) ∧
      (∀ (tail : List (Nat × HNode)) (m : Nat),
        optionTraverse (fun kv =>
          (readVal ⟨(allocFields h kvs).2.nodes ++ tail, m⟩ (sizeOf kvs) kv.2).map
            (fun jj => (kv.1, jj))) (allocFields h kvs).1 = some kvs)) ∧
    (∀ xs : List JValue, sizeOf xs ≤ n → ∀ h : Heap, (∀ e ∈ h.nodes, e.1 < h.next) →
      (∃ L, (allocElems h xs).2.nodes = h.nodes ++ L ∧
        ∀ e ∈ L, h.next ≤ e.1 ∧ ∀ b ∈ nodeRefs e.2, h.next ≤ b) ∧
      h.next ≤ (allocElems h xs).2.next ∧
      (∀ e ∈ (allocElems h xs).2.nodes, e.1 < (allocElems h xs).2.next) ∧
      (∀ v ∈ (allocElems h xs).1, ∀ b, v = .ref b → h.next ≤ b) ∧
      (∀ (tail : List (Nat × HNode)) (m : Nat),
        optionTraverse (readVal ⟨(allocElems h xs).2.nodes ++ tail, m⟩ (sizeOf xs))
          (allocElems h xs).1 = some xs)) := by
  intro n
  induction n with
  | zero =>
      refine ⟨?_, ?_, ?_⟩
      · intro j hsz
        exact absurd hsz (by have := jval_sizeOf_pos j; omega)
      · intro kvs hsz
        exact absurd hsz (by have := fields_sizeOf_pos kvs; omega)
      · intro xs hsz
        exact absurd hsz (by have := elems_sizeOf_pos xs; omega)
  | succ n ih =>
      obtain ⟨ihV, ihF, ihE⟩ := ih
      refine ⟨?_, ?_, ?_⟩
      · intro j hsz h hb
        cases j with
        | null =>
            have he : allocVal h JValue.null = (HVal.null, h) := by simp [allocVal]
            simp only [he]
            refine ⟨⟨[], by simp, by simp⟩, le_refl _, hb, ?_, ?_⟩
            · intro a ha
              simp at ha
            intro tail m
            have hsz1 : sizeOf JValue.null = 0 + 1 := by simp
            rw [hsz1]
            rfl
        | bool b =>
            have he : allocVal h (JValue.bool b) = (HVal.bool b, h) := by simp [allocVal]
            simp only [he]
            refine ⟨⟨[], by simp, by simp⟩, le_refl _, hb, ?_, ?_⟩
            · intro a ha
              simp at ha
            intro tail m
            obtain ⟨f, hf⟩ : ∃ f, sizeOf (JValue.bool b) = f + 1 :=
              ⟨sizeOf b, by first | (simp; omega) | simp⟩
            rw [hf]
            rfl
        | num nn =>
            have he : allocVal h (JValue.num nn) = (HVal.num nn, h) := by simp [allocVal]
            simp only [he]
            refine ⟨⟨[], by simp, by simp⟩, le_refl _, hb, ?_, ?_⟩
            · intro a ha
              simp at ha
            intro tail m
            obtain ⟨f, hf⟩ : ∃ f, sizeOf (JValue.num nn) = f + 1 :=
              ⟨sizeOf nn, by first | (simp; omega) | simp⟩
            rw [hf]
            rfl
        | str s =>
            have he : allocVal h (JValue.str s) = (HVal.str s, h) := by simp [allocVal]
            simp only [he]
            refine ⟨⟨[], by simp, by simp⟩, le_refl _, hb, ?_, ?_⟩
            · intro a ha
              simp at ha
            intro tail m
            obtain ⟨f, hf⟩ : ∃ f, sizeOf (JValue.str s) = f + 1 :=
              ⟨sizeOf s, by first | (simp; omega) | simp⟩
            rw [hf]
            rfl
        | obj kvs =>
            have hszk : sizeOf kvs ≤ n := by simp at hsz; omega
            obtain ⟨⟨L, hLeq, hLprop⟩, hle, hb2, hvals, hread⟩ := ihF kvs hszk h hb
            have hunf : allocVal h (JValue.obj kvs) =
                (.ref (allocFields h kvs).2.next,
                  { nodes := (allocFields h kvs).2.nodes ++
                      [((allocFields h kvs).2.next, .obj (allocFields h kvs).1)],
                    next := (allocFields h kvs).2.next + 1 }) := by
              simp [allocVal]
            simp only [hunf]
            refine ⟨⟨L ++ [((allocFields h kvs).2.next, .obj (allocFields h kvs).1)],
              ?_, ?_⟩, ?_, ?_, ?_, ?_⟩
            · rw [hLeq, List.append_assoc]
            · intro e hee
              rcases List.mem_append.mp hee with hee | hee
              · exact hLprop e hee
              · have hee2 : e = ((allocFields h kvs).2.next,
                    HNode.obj (allocFields h kvs).1) := by simpa using hee
                rw [hee2]
                refine ⟨hle, ?_⟩
                intro b hbb
                simp only [nodeRefs, nodeVals, List.mem_filterMap, List.mem_map] at hbb
                obtain ⟨v0, ⟨kv, hkv, hkveq⟩, hmatch⟩ := hbb
                cases v0 with
                | ref b0 =>
                    have hbb0 : b0 = b := by simpa using hmatch
                    exact hvals kv hkv b (by rw [hkveq, hbb0])
                | null => simp at hmatch
                | bool bb => simp at hmatch
                | num nn => simp at hmatch
                | str ss => simp at hmatch
            · exact le_trans hle (Nat.le_succ _)
            · intro e hee
              rcases List.mem_append.mp hee with hee | hee
              · exact lt_trans (hb2 e hee) (Nat.lt_succ_self _)
              · have hee2 : e = ((allocFields h kvs).2.next,
                    HNode.obj (allocFields h kvs).1) := by simpa using hee
                rw [hee2]
                exact Nat.lt_succ_self _
            · intro a ha
              injection ha with ha2
              rw [← ha2]
              exact hle
            · intro tail m
              have hsz2 : sizeOf (JValue.obj kvs) = sizeOf kvs + 1 := by
                simp only [JValue.obj.sizeOf_spec]
                omega
              rw [hsz2, List.append_assoc, List.singleton_append]
              have hfind : findNode ⟨(allocFields h kvs).2.nodes ++
                  (((allocFields h kvs).2.next, HNode.obj (allocFields h kvs).1) :: tail), m⟩
                  (allocFields h kvs).2.next = some (HNode.obj (allocFields h kvs).1) :=
                findNode_append_fresh tail m _ _ _ hb2
              simp only [readVal, readValStep, hfind]
              rw [hread (((allocFields h kvs).2.next,
                HNode.obj (allocFields h kvs).1) :: tail) m]
              rfl
        | arr xs =>
            have hszk : sizeOf xs ≤ n := by simp at hsz; omega
            obtain ⟨⟨L, hLeq, hLprop⟩, hle, hb2, hvals, hread⟩ := ihE xs hszk h hb
            have hunf : allocVal h (JValue.arr xs) =
                (.ref (allocElems h xs).2.next,
                  { nodes := (allocElems h xs).2.nodes ++
                      [((allocElems h xs).2.next, .arr (allocElems h xs).1)],
                    next := (allocElems h xs).2.next + 1 }) := by
              simp [allocVal]
            simp only [hunf]
            refine ⟨⟨L ++ [((allocElems h xs).2.next, .arr (allocElems h xs).1)],
              ?_, ?_⟩, ?_, ?_, ?_, ?_⟩
            · rw [hLeq, List.append_assoc]
            · intro e hee
              rcases List.mem_append.mp hee with hee | hee
              · exact hLprop e hee
              · have hee2 : e = ((allocElems h xs).2.next,
                    HNode.arr (allocElems h xs).1) := by simpa using hee
                rw [hee2]
                refine ⟨hle, ?_⟩
                intro b hbb
                simp only [nodeRefs, nodeVals, List.mem_filterMap] at hbb
                obtain ⟨v0, hv0, hmatch⟩ := hbb
                cases v0 with
                | ref b0 =>
                    have hbb0 : b0 = b := by simpa using hmatch
                    exact hvals (HVal.ref b0) hv0 b (by rw [hbb0])
                | null => simp at hmatch
                | bool bb => simp at hmatch
                | num nn => simp at hmatch
                | str ss => simp at hmatch
            · exact le_trans hle (Nat.le_succ _)
            · intro e hee
              rcases List.mem_append.mp hee with hee | hee
              · exact lt_trans (hb2 e hee) (Nat.lt_succ_self _)
              · have hee2 : e = ((allocElems h xs).2.next,
                    HNode.arr (allocElems h xs).1) := by simpa using hee
                rw [hee2]
                exact Nat.lt_succ_self _
            · intro a ha
              injection ha with ha2
              rw [← ha2]
              exact hle
            · intro tail m
              have hsz2 : sizeOf (JValue.arr xs) = sizeOf xs + 1 := by
                simp only [JValue.arr.sizeOf_spec]
                omega
              rw [hsz2, List.append_assoc, List.singleton_append]
              have hfind : findNode ⟨(allocElems h xs).2.nodes ++
                  (((allocElems h xs).2.next, HNode.arr (allocElems h xs).1) :: tail), m⟩
                  (allocElems h xs).2.next = some (HNode.arr (allocElems h xs).1) :=
                findNode_append_fresh tail m _ _ _ hb2
              simp only [readVal, readValStep, hfind]
              rw [hread (((allocElems h xs).2.next,
                HNode.arr (allocElems h xs).1) :: tail) m]
              rfl
      · intro kvs hsz h hb
        cases kvs with
        | nil =>
            have he : allocFields h ([] : List (String × JValue)) = ([], h) := by
              simp [allocFields]
            simp only [he]
            refine ⟨⟨[], by simp, by simp⟩, le_refl _, hb, ?_, ?_⟩
            · intro kv hkv
              simp at hkv
            · intro tail m
              rfl
        | cons kj rest =>
            obtain ⟨k, j⟩ := kj
            have hszj : sizeOf j ≤ n := by simp at hsz; omega
            have hszr : sizeOf rest ≤ n := by simp at hsz; omega
            obtain ⟨⟨LA, hLAeq, hLAprop⟩, hleA, hbA, hrefA, hreadA⟩ := ihV j hszj h hb
            obtain ⟨⟨LB, hLBeq, hLBprop⟩, hleB, hbB, hvalsB, hreadB⟩ :=
              ihF rest hszr (allocVal h j).2 hbA
            have hunf : allocFields h ((k, j) :: rest) =
                ((k, (allocVal h j).1) :: (allocFields (allocVal h j).2 rest).1,
                  (allocFields (allocVal h j).2 rest).2) := by
              simp [allocFields]
            simp only [hunf]
            refine ⟨⟨LA ++ LB, ?_, ?_⟩, ?_, ?_, ?_, ?_⟩
            · rw [hLBeq, hLAeq, List.append_assoc]
            · intro e hee
              rcases List.mem_append.mp hee with hee | hee
              · exact hLAprop e hee
              · obtain ⟨h1, h2⟩ := hLBprop e hee
                exact ⟨le_trans hleA h1, fun b hbb => le_trans hleA (h2 b hbb)⟩
            · exact le_trans hleA hleB
            · exact hbB
            · intro kv hkv b hkvb
              rcases List.mem_cons.mp hkv with heq | hkv
              · rw [heq] at hkvb
                exact hrefA b hkvb
              · exact le_trans hleA (hvalsB kv hkv b hkvb)
            · intro tail m
              have hszle1 : sizeOf j ≤ sizeOf ((k, j) :: rest) := by
                simp only [List.cons.sizeOf_spec, Prod.mk.sizeOf_spec]
                omega
              have hszle2 : sizeOf rest ≤ sizeOf ((k, j) :: rest) := by
                simp only [List.cons.sizeOf_spec]
                omega
              have hheq : (allocFields (allocVal h j).2 rest).2.nodes ++ tail =
                  (allocVal h j).2.nodes ++ (LB ++ tail) := by
                rw [hLBeq, List.append_assoc]
              have hhead : readVal ⟨(allocFields (allocVal h j).2 rest).2.nodes ++ tail, m⟩
                  (sizeOf ((k, j) :: rest)) (allocVal h j).1 = some j := by
                refine readVal_mono _ (sizeOf j) _ hszle1 _ _ ?_
                rw [hheq]
                exact hreadA (LB ++ tail) m
              have hhead2 : (readVal ⟨(allocFields (allocVal h j).2 rest).2.nodes ++ tail, m⟩
                  (sizeOf ((k, j) :: rest)) (allocVal h j).1).map (fun jj => (k, jj)) =
                  some (k, j) := by
                rw [hhead]
                rfl
              have hrest : optionTraverse (fun kv =>
                  (readVal ⟨(allocFields (allocVal h j).2 rest).2.nodes ++ tail, m⟩
                    (sizeOf ((k, j) :: rest)) kv.2).map (fun jj => (kv.1, jj)))
                  (allocFields (allocVal h j).2 rest).1 = some rest := by
                refine optionTraverse_mono _ _ ?_ _ rest (hreadB tail m)
                intro kv y hy
                obtain ⟨jj, hjj, hfy⟩ := Option.map_eq_some'.mp hy
                rw [readVal_mono _ (sizeOf rest) _ hszle2 kv.2 jj hjj]
                simpa using hfy
              simp only [optionTraverse]
              rw [hhead2, hrest]
      · intro xs hsz h hb
        cases xs with
        | nil =>
            have he : allocElems h ([] : List JValue) = ([], h) := by
              simp [allocElems]
            simp only [he]
            refine ⟨⟨[], by simp, by simp⟩, le_refl _, hb, ?_, ?_⟩
            · intro v hv
              simp at hv
            · intro tail m
              rfl
        | cons j rest =>
            have hszj : sizeOf j ≤ n := by simp at hsz; omega
            have hszr : sizeOf rest ≤ n := by simp at hsz; omega
            obtain ⟨⟨LA, hLAeq, hLAprop⟩, hleA, hbA, hrefA, hreadA⟩ := ihV j hszj h hb
            obtain ⟨⟨LB, hLBeq, hLBprop⟩, hleB, hbB, hvalsB, hreadB⟩ :=
              ihE rest hszr (allocVal h j).2 hbA
            have hunf : allocElems h (j :: rest) =
                ((allocVal h j).1 :: (allocElems (allocVal h j).2 rest).1,
                  (allocElems (allocVal h j).2 rest).2) := by
              simp [allocElems]
            simp only [hunf]
            refine ⟨⟨LA ++ LB, ?_, ?_⟩, ?_, ?_, ?_, ?_⟩
            · rw [hLBeq, hLAeq, List.append_assoc]
            · intro e hee
              rcases List.mem_append.mp hee with hee | hee
              · exact hLAprop e hee
              · obtain ⟨h1, h2⟩ := hLBprop e hee
                exact ⟨le_trans hleA h1, fun b hbb => le_trans hleA (h2 b hbb)⟩
            · exact le_trans hleA hleB
            · exact hbB
            · intro v hv b hvb
              rcases List.mem_cons.mp hv with heq | hv
              · rw [heq] at hvb
                exact hrefA b hvb
              · exact le_trans hleA (hvalsB v hv b hvb)
            · intro tail m
              have hszle1 : sizeOf j ≤ sizeOf (j :: rest) := by
                simp only [List.cons.sizeOf_spec]
                omega
              have hszle2 : sizeOf rest ≤ sizeOf (j :: rest) := by
                simp only [List.cons.sizeOf_spec]
                omega
              have hheq : (allocElems (allocVal h j).2 rest).2.nodes ++ tail =
                  (allocVal h j).2.nodes ++ (LB ++ tail) := by
                rw [hLBeq, List.append_assoc]
              have hhead : readVal ⟨(allocElems (allocVal h j).2 rest).2.nodes ++ tail, m⟩
                  (sizeOf (j :: rest)) (allocVal h j).1 = some j := by
                refine readVal_mono _ (sizeOf j) _ hszle1 _ _ ?_
                rw [hheq]
                exact hreadA (LB ++ tail) m
              have hrest : optionTraverse
                  (readVal ⟨(allocElems (allocVal h j).2 rest).2.nodes ++ tail, m⟩
                    (sizeOf (j :: rest)))
                  (allocElems (allocVal h j).2 rest).1 = some rest := by
                refine optionTraverse_mono _ _ ?_ _ rest (hreadB tail m)
                intro x y hy
                exact readVal_mono _ (sizeOf rest) _ hszle2 x y hy
              simp only [optionTraverse]
              rw [hhead, hrest]

theorem reach_ge (h2 : Heap) (old L : List (Nat × HNode)) (N : Nat)
    (hsplit : h2.nodes = old ++ L)
    (hold : ∀ e ∈ old, e.1 < N)
    (hL : ∀ e ∈ L, N ≤ e.1 ∧ ∀ b ∈ nodeRefs e.2, N ≤ b) :
    ∀ (fuel : Nat) (v : HVal), (∀ a, v = .ref a → N ≤ a) →
      ∀ b ∈ reachFrom h2 fuel v, N ≤ b := by
  intro fuel
  induction fuel with
  | zero => intro v _ b hb; simp [reachFrom] at hb
  | succ fuel ih =>
      intro v hv b hb
      cases v with
      | null => simp [reachFrom, reachStep] at hb
      | bool bb => simp [reachFrom, reachStep] at hb
      | num nn => simp [reachFrom, reachStep] at hb
      | str ss => simp [reachFrom, reachStep] at hb
      | ref a =>
          have hNa : N ≤ a := hv a rfl
          simp only [reachFrom, reachStep] at hb
          rcases List.mem_cons.mp hb with rfl | hb
          · exact hNa
          · cases hfn : findNode h2 a with
            | none =>
                try rw [hfn] at hb
                simp at hb
            | some nd =>
                try rw [hfn] at hb
                simp only [] at hb
                obtain ⟨l, hl, hbl⟩ := List.mem_flatten.mp hb
                obtain ⟨c, hcmem, rfl⟩ := List.mem_map.mp hl
                obtain ⟨e, hemem, he1, he2⟩ := findNode_mem h2 a nd hfn
                have heL : e ∈ L := by
                  rw [hsplit] at hemem
                  rcases List.mem_append.mp hemem with hmem | hmem
                  · exact absurd (hold e hmem) (by rw [he1]; omega)
                  · exact hmem
                have hrefsN : ∀ b2 ∈ nodeRefs nd, N ≤ b2 := by
                  intro b2 hb2
                  exact (hL e heL).2 b2 (by rw [he2]; exact hb2)
                refine ih c ?_ b hbl
                intro a2 ha2
                apply hrefsN
                simp only [nodeRefs, List.mem_filterMap]
                exact ⟨c, hcmem, by rw [ha2]⟩

/-- C4: the global config getter returns a deep copy isolated from internal
state.  When globalConfigGet (the stringify-then-parse read installed on
global.config in the constructor) succeeds on a well-formed heap, the copy
reads back as exactly the tree the internal get resolved; every heap address
reachable from the copy is fresh (at or above the pre-call bound), and
mutating any node at such an address leaves the internal configuration tree,
the outcome of every subsequent get call, and the trees those calls resolve
to completely unchanged. -/
theorem c4_global_get_deep_copy (h : Heap) (config : HVal) (attr : Option String)
    (copy : HVal) (h2 : Heap) (hwf : heapWF h) (hc : valWF h config)
    (hok : globalConfigGet h config attr = .ok (copy, h2)) :
    (∃ v j, hGet h config attr = .ok v ∧ readVal h (h.next + 1) v = some j ∧
      ∀ fuel, sizeOf j ≤ fuel → readVal h2 fuel copy = some j) ∧
    (∀ fuel b, b ∈ reachFrom h2 fuel copy → h.next ≤ b) ∧
    (∀ a nd, h.next ≤ a →
      (∀ fuel, readVal (replaceNode h2 a nd) fuel config = readVal h fuel config) ∧
      (∀ attr2, hGet (replaceNode h2 a nd) config attr2 = hGet h config attr2) ∧
      (∀ attr2 v2, hGet h config attr2 = .ok v2 →
        ∀ fuel, readVal (replaceNode h2 a nd) fuel v2 = readVal h fuel v2)) := by
  have hobt : ∃ v j, hGet h config attr = .ok v ∧ readVal h (h.next + 1) v = some j ∧
      allocVal h j = (copy, h2) := by
    unfold globalConfigGet at hok
    split at hok
    · simp at hok
    · rename_i v hv
      split at hok
      · simp at hok
      · rename_i j hj
        exact ⟨v, j, hv, hj, Except.ok.inj hok⟩
  obtain ⟨v, j, hv, hj, halloc⟩ := hobt
  have hcopy : (allocVal h j).1 = copy := by rw [halloc]
  have hh2 : (allocVal h j).2 = h2 := by rw [halloc]
  have hbnd : ∀ e ∈ h.nodes, e.1 < h.next := fun e he => (hwf.2 e he).1
  obtain ⟨⟨L, hLeq, hLprop⟩, hle, hb2, hrefs, hread⟩ :=
    (alloc_spec (sizeOf j)).1 j (le_refl _) h hbnd
  rw [hh2] at hLeq hle hb2
  rw [hcopy, hh2] at hread
  rw [hcopy] at hrefs
  refine ⟨⟨v, j, hv, hj, ?_⟩, ?_, ?_⟩
  · intro fuel hfuel
    have h0 : readVal h2 (sizeOf j) copy = some j := by
      have hrd := hread [] h2.next
      rw [List.append_nil] at hrd
      exact hrd
    exact readVal_mono h2 (sizeOf j) fuel hfuel copy j h0
  · intro fuel b hb
    exact reach_ge h2 h.nodes L h.next hLeq hbnd hLprop fuel copy
      (fun a ha => hrefs a ha) b hb
  · intro a nd hge
    have hag : ∀ b, findNode h b ≠ none →
        findNode (replaceNode h2 a nd) b = findNode h b := by
      intro b hbne
      cases hfb : findNode h b with
      | none => exact absurd hfb hbne
      | some nd0 =>
          obtain ⟨e, hemem, he1, he2⟩ := findNode_mem h b nd0 hfb
          have hblt : b < h.next := by rw [← he1]; exact hbnd e hemem
          have hba : b ≠ a := by omega
          rw [replaceNode_findNode_ne h2 a nd b hba]
          have hfb2 : findNode ⟨h.nodes ++ L, h2.next⟩ b = some nd0 :=
            findNode_append_some h.nodes L h.next h2.next b nd0 hfb
          rw [← hLeq] at hfb2
          exact hfb2
    have hcl : ∀ a0, config = .ref a0 → findNode h a0 ≠ none := by
      intro a0 ha0
      rw [ha0] at hc
      exact hc.2
    refine ⟨?_, ?_, ?_⟩
    · intro fuel
      exact readVal_frame h (replaceNode h2 a nd) hwf hag fuel config hcl
    · intro attr2
      exact hGet_frame h (replaceNode h2 a nd) hwf hag config hc attr2
    · intro attr2 v2 hv2 fuel
      have hwf2 : valWF h v2 := hGet_wf h hwf config hc attr2 v2 hv2
      refine readVal_frame h (replaceNode h2 a nd) hwf hag fuel v2 ?_
      intro a0 ha0
      rw [ha0] at hwf2
      exact hwf2.2

theorem c4_global_get_deep_copy_witness :
    (∃ v jv, hGet ⟨[(0, HNode.obj [("x", HVal.num 1)])], 1⟩ (HVal.ref 0) none = .ok v ∧
      readVal ⟨[(0, HNode.obj [("x", HVal.num 1)])], 1⟩ 2 v = some jv ∧
      ∀ fuel, sizeOf jv ≤ fuel →
        readVal ⟨[(0, HNode.obj [("x", HVal.num 1)]),
          (1, HNode.obj [("x", HVal.num 1)])], 2⟩ fuel (HVal.ref 1) = some jv) ∧
    (∀ fuel b, b ∈ reachFrom ⟨[(0, HNode.obj [("x", HVal.num 1)]),
        (1, HNode.obj [("x", HVal.num 1)])], 2⟩ fuel (HVal.ref 1) → 1 ≤ b) ∧
    (∀ a nd, 1 ≤ a →
      (∀ fuel, readVal (replaceNode ⟨[(0, HNode.obj [("x", HVal.num 1)]),
          (1, HNode.obj [("x", HVal.num 1)])], 2⟩ a nd) fuel (HVal.ref 0) =
        readVal ⟨[(0, HNode.obj [("x", HVal.num 1)])], 1⟩ fuel (HVal.ref 0)) ∧
      (∀ attr2, hGet (replaceNode ⟨[(0, HNode.obj [("x", HVal.num 1)]),
          (1, HNode.obj [("x", HVal.num 1)])], 2⟩ a nd) (HVal.ref 0) attr2 =
        hGet ⟨[(0, HNode.obj [("x", HVal.num 1)])], 1⟩ (HVal.ref 0) attr2) ∧
      (∀ attr2 v2, hGet ⟨[(0, HNode.obj [("x", HVal.num 1)])], 1⟩ (HVal.ref 0) attr2 =
          .ok v2 →
        ∀ fuel, readVal (replaceNode ⟨[(0, HNode.obj [("x", HVal.num 1)]),
            (1, HNode.obj [("x", HVal.num 1)])], 2⟩ a nd) fuel v2 =
          readVal ⟨[(0, HNode.obj [("x", HVal.num 1)])], 1⟩ fuel v2)) :=
  c4_global_get_deep_copy ⟨[(0, HNode.obj [("x", HVal.num 1)])], 1⟩ (HVal.ref 0) none
    (HVal.ref 1) ⟨[(0, HNode.obj [("x", HVal.num 1)]), (1, HNode.obj [("x", HVal.num 1)])], 2⟩
    (by
      refine ⟨by simp, ?_⟩
      intro e he
      simp only [List.mem_singleton] at he
      rw [he]
      refine ⟨by decide, ?_⟩
      intro b hb
      simp [nodeRefs, nodeVals] at hb)
    ⟨by decide, by simp [findNode, List.find?]⟩
    (by simp [globalConfigGet, hGet, readVal, readValStep, findNode, List.find?,
      optionTraverse, allocVal, allocFields])
